import Mathlib

/-!
Verification development for the DiscoPoP `DPInstrumentationOmission`
LLVM module pass (`DPInstrumentationOmission/DPInstrumentationOmission.cpp`).

The pass is shallowly embedded.  LLVM values, instructions, basic blocks,
functions and modules become inductive data; pointer identity of the C++
objects is modelled by numeric identity fields (`vid`, `iid`, `bid`).
`std::set` of values/instructions is modelled by duplicate-free insertion
into lists (only membership is ever observed); `std::set<string>` is
modelled by sorted duplicate-free insertion (its lexicographic iteration
order is observable in the serialized dependence string); the
`std::map<BasicBlock*, set<string>>` is modelled by an association list
kept sorted on the key, mirroring the pointer-ordered iteration of the
C++ map.

The `InstructionCFG`/`InstructionDG` builders and the dominator tree are
not part of this repository's sources; following the specification, the
dependence graph is taken as an input: nodes optionally carry an
operation (a memory read or write; artifact nodes carry none), edges
carry the descriptor string `edgeToDPDep` would produce, and dominance is
an input relation on instructions.
-/

namespace DPOmission

/-- An LLVM `Value`: identity (`vid`, standing for the object's address)
together with its IR name (inspected by the pass only for the
`"retval"` test). -/
structure Value where
  vid : Nat
  vname : String
deriving DecidableEq, Repr

/-- One LLVM instruction, restricted to the shapes `runOnModule`
inspects.  `dbgDeclare`/`dbgValue` stand for the debug intrinsics; their
operands are metadata-wrapped and never compare equal to ordinary
values, so they are kept apart from `call`, whose `args` are the
explicit argument operands (excluding the callee operand).  A `call`
with `callee = none` is an indirect call (`getCalledFunction()` null).
For a `store`, `hasDl` records whether the instruction carries a debug
location, `src` is operand 0 and `dst` is operand 1.  `iid` is the
instruction's identity (its address). -/
inductive Inst where
  | dbgDeclare (iid : Nat) (addr : Value)
  | dbgValue (iid : Nat) (val : Value)
  | call (iid : Nat) (callee : Option String) (args : List Value)
  | store (iid : Nat) (hasDl : Bool) (src : Value) (dst : Value)
  | load (iid : Nat) (addr : Value)
  | other (iid : Nat)
deriving DecidableEq, Repr

/-- A basic block: identity (`bid`, its address, which also orders the
keys of the conditional-dependence map) and its instruction list; the
block terminator is the last element. -/
structure BBlock where
  bid : Nat
  insts : List Inst
deriving DecidableEq, Repr

/-- An LLVM function. -/
structure Func where
  fname : String
  blocks : List BBlock
deriving DecidableEq, Repr

/-- An LLVM module. -/
structure LlvmModule where
  funcs : List Func
deriving DecidableEq, Repr

/-- All instructions of a function, in program order (`inst_iterator`). -/
def Func.insts (f : Func) : List Inst :=
  (f.blocks.map BBlock.insts).flatten

/-- `isa<StoreInst>`. -/
def Inst.isStore : Inst → Bool
  | .store _ _ _ _ => true
  | _ => false

/-- `isa<LoadInst>`. -/
def Inst.isLoad : Inst → Bool
  | .load _ _ => true
  | _ => false

/-- The address operand the pass reads from a memory operation:
`I->getOperand(isa<StoreInst>(I) ? 1 : 0)`, i.e. the store destination
or the load address.  `none` for instructions that are not memory
operations (the pass only applies this to loads and stores). -/
def addrOperand? : Inst → Option Value
  | .store _ _ _ dst => some dst
  | .load _ a => some a
  | _ => none

/-- Whether an instruction is a direct call to `__dp_write` or
`__dp_read` (lines 50–51 and 169–172 of the source). -/
def isDpCall (i : Inst) : Bool :=
  match i with
  | .call _ (some n) _ => decide (n = "__dp_write" ∨ n = "__dp_read")
  | _ => false

/-- Insertion into a pointer-keyed `std::set`, of which only membership
is observed: append if not already present. -/
def insertVal (l : List Value) (v : Value) : List Value :=
  if v ∈ l then l else l ++ [v]

/-- Seeding of `localValues` (source lines 40–46): every address bound
by a `dbg.declare` and every value bound by a `dbg.value`. -/
def localSeed (insts : List Inst) : List Value :=
  insts.foldl
    (fun acc i =>
      match i with
      | .dbgDeclare _ a => insertVal acc a
      | .dbgValue _ v => insertVal acc v
      | _ => acc) []

/-- One step of the escape scan (source lines 48–78): a direct call
erases all its argument operands from the local set; a store erases its
stored value (operand 0).  Indirect calls erase nothing, because the
argument loop sits inside the `if (Function *Fun = getCalledFunction())`
test. -/
def escapeStep (l : List Value) (i : Inst) : List Value :=
  match i with
  | .call _ (some _) args => l.filter (fun w => decide (w ∉ args))
  | .store _ _ src _ => l.filter (fun w => decide (w ≠ src))
  | _ => l

/-- The function's local-value set after the escape scan. -/
def localValues (insts : List Inst) : List Value :=
  insts.foldl escapeStep (localSeed insts)

/-- `writtenValues` (source lines 66–69): destinations of stores that
carry a debug location. -/
def writtenValues (insts : List Inst) : List Value :=
  insts.foldl
    (fun acc i =>
      match i with
      | .store _ true _ dst => insertVal acc dst
      | _ => acc) []

/-- The baseline omission test (source lines 85–88): the address
operand is local and never written, or it is named `"retval"`. -/
def baselineOk (lv wv : List Value) (i : Inst) : Bool :=
  match addrOperand? i with
  | some v => decide ((v ∈ lv ∧ v ∉ wv) ∨ v.vname = "retval")
  | none => false

/-- The baseline omittable set (source lines 81–90). -/
def baselineOmit (insts : List Inst) : List Inst :=
  insts.filter (fun i => baselineOk (localValues insts) (writtenValues insts) i)

/-- Modelled from the spec: a node of the `InstructionDG` dependence
graph (the graph builder is not part of this repository's sources).
A node may carry an operation — a memory read or write — or nothing
(`getItem()` null on artifact nodes such as entry/exit). -/
structure DGNode where
  nid : Nat
  item : Option Inst
deriving DecidableEq, Repr

/-- Modelled from the spec: a dependence edge between two graph nodes,
annotated with the descriptor string `edgeToDPDep` would serialize for
it. -/
structure DGEdge where
  esrc : DGNode
  edst : DGNode
  descr : String
deriving DecidableEq, Repr

/-- Modelled from the spec: the function's dependence graph, taken as an
input to the analysis. -/
structure DepGraph where
  nodes : List DGNode
  edges : List DGEdge

/-- `DG.getOutEdges(node)`. -/
def outEdges (dg : DepGraph) (n : DGNode) : List DGEdge :=
  dg.edges.filter (fun e => decide (e.esrc = n))

/-- `DG.getInEdges(node)`. -/
def inEdges (dg : DepGraph) (n : DGNode) : List DGEdge :=
  dg.edges.filter (fun e => decide (e.edst = n))

/-- The predictability test on one outgoing edge (source line 108):
if the destination node carries an operation `J`, require `I ≠ J` and
`J` to dominate `I`; an item-less destination is skipped. -/
def edgeOkOut (dom : Inst → Inst → Bool) (i : Inst) (e : DGEdge) : Bool :=
  match e.edst.item with
  | some j => !(decide (i = j)) && dom j i
  | none => true

/-- The predictability test on one incoming edge (source line 114). -/
def edgeOkIn (dom : Inst → Inst → Bool) (i : Inst) (e : DGEdge) : Bool :=
  match e.esrc.item with
  | some j => !(decide (i = j)) && dom i j
  | none => true

/-- All edges touching the node pass the dominance test; observably
equivalent to the early-exit `goto next` control flow, which discards
the node at the first failing edge. -/
def edgesOk (dom : Inst → Inst → Bool) (i : Inst) (outs ins : List DGEdge) : Bool :=
  outs.all (edgeOkOut dom i) && ins.all (edgeOkIn dom i)

/-- The descriptor strings of the item-bearing edges touching a node,
outgoing edges first (the order `tmpDeps` receives insertions in). -/
def edgeDescs (outs ins : List DGEdge) : List String :=
  outs.filterMap (fun e => e.edst.item.map (fun _ => e.descr))
    ++ ins.filterMap (fun e => e.esrc.item.map (fun _ => e.descr))

/-- Insertion into a `std::set<string>`: sorted, without duplicates. -/
def insertStr (l : List String) (s : String) : List String :=
  match l with
  | [] => [s]
  | x :: r => if s < x then s :: x :: r else if s = x then x :: r else x :: insertStr r s

/-- The `tmpDeps` set accumulated while scanning a node's edges. -/
def tmpDepsOf (outs ins : List DGEdge) : List String :=
  (edgeDescs outs ins).foldl insertStr []

/-- `I->getParent()`: the id of the block holding the instruction. -/
def parentIdOf (f : Func) (i : Inst) : Nat :=
  ((f.blocks.find? (fun b => decide (i ∈ b.insts))).map BBlock.bid).getD 0

/-- Insertion/merge into the key-sorted association list modelling
`map<BasicBlock*, set<string>> conditionalDepMap` (source lines
121–124): a fresh key receives `tmp` itself, an existing key receives
the set union. -/
def mapMerge : List (Nat × List String) → Nat → List String → List (Nat × List String)
  | [], b, tmp => [(b, tmp)]
  | (k, s) :: rest, b, tmp =>
    if b < k then (b, tmp) :: (k, s) :: rest
    else if b = k then (k, tmp.foldl insertStr s) :: rest
    else (k, s) :: mapMerge rest b tmp

/-- Insertion into the pointer-keyed `std::set<Instruction*>`
`omittableInstructions`: only membership is observed. -/
def insertInst (l : List Inst) (i : Inst) : List Inst :=
  if i ∈ l then l else l ++ [i]

/-- Processing of one dependence-graph node (source lines 103–127):
skip item-less nodes; abandon the node if any touching edge fails the
dominance test; otherwise, if at least one descriptor was collected and
the address operand is local, add the operation to the omittable set and
merge the descriptors into its parent block's entry of the map. -/
def processNode (f : Func) (dom : Inst → Inst → Bool) (dg : DepGraph)
    (st : List Inst × List (Nat × List String)) (n : DGNode) :
    List Inst × List (Nat × List String) :=
  match n.item with
  | none => st
  | some i =>
    if edgesOk dom i (outEdges dg n) (inEdges dg n) then
      match addrOperand? i with
      | some v =>
        if tmpDepsOf (outEdges dg n) (inEdges dg n) ≠ [] ∧ v ∈ localValues f.insts then
          (insertInst st.1 i,
            mapMerge st.2 (parentIdOf f i) (tmpDepsOf (outEdges dg n) (inEdges dg n)))
        else st
      | none => st
    else st

/-- The deep predictability analysis of one function: fold the node
processing over all graph nodes, starting from the baseline omittable
set and an empty conditional-dependence map. -/
def deepAnalyze (f : Func) (dom : Inst → Inst → Bool) (dg : DepGraph)
    (base : List Inst) : List Inst × List (Nat × List String) :=
  dg.nodes.foldl (processNode f dom dg) (base, [])

/-- The final omittable set of a function: the baseline set, extended by
the deep analysis when the `-dp-omissions-dep-analysis` flag is set. -/
def omittableInstructions (deep : Bool) (dom : Inst → Inst → Bool)
    (dg : DepGraph) (f : Func) : List Inst :=
  if deep then (deepAnalyze f dom dg (baselineOmit f.insts)).1
  else baselineOmit f.insts

/-- `ConstantInt::get(Int32, k)`. -/
def intConst (k : Nat) : Value :=
  ⟨k, "$constint"⟩

/-- The inserted `__dp_report_bb` call carrying a table index (source
line 130). -/
def reportCall (k : Nat) : Inst :=
  .call 0 (some "__dp_report_bb") [intConst k]

/-- The inserted `__dp_add_omission_deps` call (source lines 207–214);
its argument is the pointer to the created global string, modelled as a
value whose name field carries the string payload. -/
def addDepsCall (s : String) : Inst :=
  .call 0 (some "__dp_add_omission_deps") [⟨0, s⟩]

/-- Whether an instruction is a direct call to `__dp_finalize`. -/
def isFinalizeCall (i : Inst) : Bool :=
  match i with
  | .call _ (some n) _ => decide (n = "__dp_finalize")
  | _ => false

/-- Insertion of an instruction immediately before a block's terminator
(the last instruction). -/
def insertLast : List Inst → Inst → List Inst
  | [], c => [c]
  | [t], c => [c, t]
  | x :: y :: r, c => x :: insertLast (y :: r) c

/-- Insert `c` before the terminator of the block whose id is `bid`. -/
def insertBeforeTerm (f : Func) (bid : Nat) (c : Inst) : Func :=
  ⟨f.fname,
    f.blocks.map (fun b => if b.bid = bid then ⟨b.bid, insertLast b.insts c⟩ else b)⟩

/-- The report-insertion loop (source lines 129–132): walk the map in
key order; each entry's block receives a `__dp_report_bb` call before
its terminator, carrying the running size of the module-wide
`conditionalBBDeps` vector. -/
def insertReports (tblLen : Nat) : List (Nat × List String) → Func → Func
  | [], f => f
  | (bid, _) :: rest, f =>
    insertReports (tblLen + 1) rest (insertBeforeTerm f bid (reportCall tblLen))

/-- The deletion loop (source lines 166–179) as a single pass: a direct
`__dp_read`/`__dp_write` call is erased exactly when the instruction
following it (its successor in the block, which finds the call as its
`getPrevNode()`) is in the omittable set.  Each omittable instruction is
visited once and deleted calls are the predecessors of pairwise distinct
omittable instructions, so the set-iteration order of the C++ loop does
not affect the result. -/
def deleteTracking (om : List Inst) : List Inst → List Inst
  | [] => []
  | [c] => [c]
  | c :: i :: rest =>
    if isDpCall c && decide (i ∈ om) then deleteTracking om (i :: rest)
    else c :: deleteTracking om (i :: rest)

/-- Apply the deletion loop to every block of a function. -/
def deleteAll (om : List Inst) (f : Func) : Func :=
  ⟨f.fname, f.blocks.map (fun b => ⟨b.bid, deleteTracking om b.insts⟩)⟩

/-- Number of instructions of a function (`getInstructionCount`). -/
def instCount (f : Func) : Nat :=
  f.insts.length

/-- The `totalInstrumentations` increments contributed by one function
(source lines 49–53). -/
def countDp (f : Func) : Nat :=
  (f.insts.filter isDpCall).length

/-- The `removedInstrumentations` increments contributed by one
function: instructions erased by the deletion loop. -/
def removedIn (om : List Inst) (f : Func) : Nat :=
  (f.blocks.map (fun b => b.insts.length - (deleteTracking om b.insts).length)).sum

/-- Result of processing one function. -/
structure FnResult where
  fnOut : Func
  total : Nat
  removed : Nat
  tblAdd : List (List String)
deriving Repr

/-- Per-function body of `runOnModule` (source lines 29–181): functions
without instructions are skipped; otherwise compute the omittable set
(baseline, extended by the deep analysis when enabled), insert the
report calls (deep analysis only), then delete the tracking calls. -/
def processFunc (deep : Bool) (dom : Inst → Inst → Bool) (dg : DepGraph)
    (tblLen : Nat) (f : Func) : FnResult :=
  if instCount f = 0 then ⟨f, 0, 0, []⟩
  else
    ⟨deleteAll (omittableInstructions deep dom dg f)
        (if deep then insertReports tblLen (deepAnalyze f dom dg (baselineOmit f.insts)).2 f
         else f),
      countDp f,
      removedIn (omittableInstructions deep dom dg f)
        (if deep then insertReports tblLen (deepAnalyze f dom dg (baselineOmit f.insts)).2 f
         else f),
      if deep then (deepAnalyze f dom dg (baselineOmit f.insts)).2.map Prod.snd else []⟩

/-- Result of the per-function loop over a module. -/
structure ModResult where
  funcsOut : List Func
  tbl : List (List String)
  total : Nat
  removed : Nat
deriving Repr

/-- The module loop: each function is processed with its own dominance
relation and dependence graph (supplied positionally in `ans`), and the
module-wide `conditionalBBDeps` table is threaded through. -/
def runFuncsAux (deep : Bool) :
    List ((Inst → Inst → Bool) × DepGraph) → List (List String) → List Func → ModResult
  | _, tbl, [] => ⟨[], tbl, 0, 0⟩
  | ans, tbl, f :: rest =>
    let a := ans.headD (fun _ _ => false, ⟨[], []⟩)
    let r := processFunc deep a.1 a.2 tbl.length f
    let m := runFuncsAux deep ans.tail (tbl ++ r.tblAdd) rest
    ⟨r.fnOut :: m.funcsOut, m.tbl, r.total + m.total, r.removed + m.removed⟩

/-- One serialized table entry (the `first2`/`","` loop of source lines
189–194). -/
def serEntry : List String → String
  | [] => ""
  | d :: rest => rest.foldl (fun acc s => acc ++ "," ++ s) d

/-- The serialized `depString` (source lines 185–196): entries joined
with `"/"`, descriptors within an entry joined with `","`. -/
def depStringOf : List (List String) → String
  | [] => ""
  | e :: rest => rest.foldl (fun acc e2 => acc ++ "/" ++ serEntry e2) (serEntry e)

/-- Expansion of a block of `main` (source lines 202–218): an
`__dp_add_omission_deps` call carrying the serialized table is inserted
immediately before every direct `__dp_finalize` call. -/
def expandFinalize (s : String) (l : List Inst) : List Inst :=
  l.flatMap (fun i => if isFinalizeCall i then [addDepsCall s, i] else [i])

/-- The table-attachment loop (source lines 200–220), applied to every
function named `main`. -/
def attachDeps (s : String) (fs : List Func) : List Func :=
  fs.map (fun f =>
    if f.fname = "main" then
      ⟨f.fname, f.blocks.map (fun b => ⟨b.bid, expandFinalize s b.insts⟩)⟩
    else f)

/-- Result of `runOnModule`: the transformed module, the returned
boolean, and the two statistics counters. -/
structure RunResult where
  modOut : LlvmModule
  ok : Bool
  total : Nat
  removed : Nat
deriving Repr

/-- `DPInstrumentationOmission::runOnModule`: process every function;
when the deep analysis is disabled, return immediately after the loop
(source line 183); otherwise serialize the table and attach it before
every `__dp_finalize` call of `main`.  The pass always returns `true`. -/
def runOnModule (deep : Bool) (ans : List ((Inst → Inst → Bool) × DepGraph))
    (M : LlvmModule) : RunResult :=
  let r := runFuncsAux deep ans [] M.funcs
  if deep then ⟨⟨attachDeps (depStringOf r.tbl) r.funcsOut⟩, true, r.total, r.removed⟩
  else ⟨⟨r.funcsOut⟩, true, r.total, r.removed⟩

/-- Consecutive pairs of an instruction list: `(c, i)` is a pair exactly
when `i` directly follows `c`, i.e. `c = i.getPrevNode()`. -/
def consecPairs : List Inst → List (Inst × Inst)
  | [] => []
  | [_] => []
  | a :: b :: r => (a, b) :: consecPairs (b :: r)

/-- Lookup in the conditional-dependence map (empty set for an absent
key). -/
def lookupDeps (m : List (Nat × List String)) (b : Nat) : List String :=
  ((m.find? (fun p => decide (p.1 = b))).map Prod.snd).getD []

/-- Position of a key in the association list (the table index a block's
entry receives). -/
def keyIdx (b : Nat) : List (Nat × List String) → Option Nat
  | [] => none
  | (k, _) :: rest => if k = b then some 0 else (keyIdx b rest).map (· + 1)

/-- The instruction list of the block with the given id (empty if the
function has no such block). -/
def blockInsts (f : Func) (b : Nat) : List Inst :=
  ((f.blocks.find? (fun bb => decide (bb.bid = b))).map BBlock.insts).getD []

/-- One step of the node fold, additionally recording the order in which
blocks first receive an entry of the conditional-dependence map. -/
def encounterStep (f : Func) (dom : Inst → Inst → Bool) (dg : DepGraph)
    (p : (List Inst × List (Nat × List String)) × List Nat) (n : DGNode) :
    (List Inst × List (Nat × List String)) × List Nat :=
  ((processNode f dom dg p.1 n),
    p.2 ++ ((processNode f dom dg p.1 n).2.map Prod.fst).filter
      (fun b => decide (b ∉ p.1.2.map Prod.fst)))

/-- The blocks of a function that receive a conditional-dependence
entry, listed in the order the analysis first encounters them (the
order the specification's "first-encountered" reading assigns). -/
def encounterBlocks (f : Func) (dom : Inst → Inst → Bool) (dg : DepGraph)
    (base : List Inst) : List Nat :=
  (dg.nodes.foldl (encounterStep f dom dg) ((base, []), [])).2

/-- Splitting a character list at every occurrence of the delimiter. -/
def splitOnChar (c : Char) : List Char → List (List Char)
  | [] => [[]]
  | x :: rest =>
    if x = c then [] :: splitOnChar c rest
    else
      match splitOnChar c rest with
      | [] => [[x]]
      | g :: gs => (x :: g) :: gs

/-- Modelled from the spec: the documented decoding of the serialized
omission table — split the string on `'/'` into entries and each entry
on `','` into descriptors.  (No decoder exists in this repository's
sources; the format is consumed by the runtime.) -/
def decodeTable (s : String) : List (List String) :=
  (splitOnChar '/' s.toList).map (fun e => (splitOnChar ',' e).map (fun d => String.mk d))

/-- Joining character lists with a delimiter, the character-level view
of the serializer. -/
def charJoin (c : Char) : List (List Char) → List Char
  | [] => []
  | [x] => x
  | x :: y :: r => x ++ c :: charJoin c (y :: r)

theorem mem_insertVal {l : List Value} {v w : Value} :
    v ∈ insertVal l w ↔ v ∈ l ∨ v = w := by
  by_cases h : w ∈ l
  · simp only [insertVal, if_pos h]
    constructor
    · exact Or.inl
    · rintro (hv | rfl)
      · exact hv
      · exact h
  · simp [insertVal, if_neg h]

theorem mem_insertInst {l : List Inst} {i j : Inst} :
    i ∈ insertInst l j ↔ i ∈ l ∨ i = j := by
  by_cases h : j ∈ l
  · simp only [insertInst, if_pos h]
    constructor
    · exact Or.inl
    · rintro (hv | rfl)
      · exact hv
      · exact h
  · simp [insertInst, if_neg h]

theorem mem_escapeStep {l : List Value} {i : Inst} {v : Value}
    (h : v ∈ escapeStep l i) : v ∈ l := by
  unfold escapeStep at h
  split at h
  · exact List.mem_of_mem_filter h
  · exact List.mem_of_mem_filter h
  · exact h

theorem not_mem_escape_foldl :
    ∀ (l : List Inst) (acc : List Value) (v : Value),
      v ∉ acc → v ∉ l.foldl escapeStep acc
  | [], _, _, h => by simpa using h
  | _ :: rest, acc, v, h => by
    simp only [List.foldl_cons]
    exact not_mem_escape_foldl rest _ v (fun hc => h (mem_escapeStep hc))

theorem call_arg_escapes :
    ∀ (l : List Inst) (acc : List Value) (iid : Nat) (g : String)
      (args : List Value) (v : Value),
      Inst.call iid (some g) args ∈ l → v ∈ args → v ∉ l.foldl escapeStep acc
  | [], _, _, _, _, _, h, _ => by simp at h
  | j :: rest, acc, iid, g, args, v, hmem, hv => by
    simp only [List.foldl_cons]
    rcases List.mem_cons.mp hmem with hj | hj
    · apply not_mem_escape_foldl
      rw [← hj]
      intro hc
      simp only [escapeStep] at hc
      have h2 := (List.mem_filter.mp hc).2
      simp only [decide_eq_true_eq] at h2
      exact h2 hv
    · exact call_arg_escapes rest _ iid g args v hj hv

theorem store_src_escapes :
    ∀ (l : List Inst) (acc : List Value) (iid : Nat) (dl : Bool) (src dst : Value),
      Inst.store iid dl src dst ∈ l → src ∉ l.foldl escapeStep acc
  | [], _, _, _, _, _, h => by simp at h
  | j :: rest, acc, iid, dl, src, dst, hmem => by
    simp only [List.foldl_cons]
    rcases List.mem_cons.mp hmem with hj | hj
    · apply not_mem_escape_foldl
      rw [← hj]
      intro hc
      have h2 := (List.mem_filter.mp hc).2
      simp at h2
    · exact store_src_escapes rest _ iid dl src dst hj

theorem baselineOk_iff (lv wv : List Value) (i : Inst) :
    baselineOk lv wv i = true ↔
      ∃ v, addrOperand? i = some v ∧
        ((v ∈ lv ∧ v ∉ wv) ∨ v.vname = "retval") := by
  unfold baselineOk
  split
  next v heq =>
    rw [decide_eq_true_eq]
    constructor
    · intro h
      exact ⟨v, heq, h⟩
    · rintro ⟨w, hw, h⟩
      rw [heq] at hw
      injection hw with hw
      rwa [hw]
  next heq =>
    simp only [Bool.false_eq_true, false_iff]
    rintro ⟨w, hw, h⟩
    rw [heq] at hw
    exact Option.noConfusion hw

/-- C3: for every function, a load or store is in the baseline
omittable set exactly when its address operand is in the local set and
not in the written set, or is named `"retval"`; and with the
deep-analysis flag off the final omittable set is the baseline set
itself (the flag only determines whether the baseline set is extended
afterwards), so the characterization does not depend on it. -/
theorem c3_baseline_selection (f : Func) (i : Inst) :
    (i ∈ baselineOmit f.insts ↔
      i ∈ f.insts ∧ ∃ v, addrOperand? i = some v ∧
        ((v ∈ localValues f.insts ∧ v ∉ writtenValues f.insts) ∨ v.vname = "retval")) ∧
    ∀ (dom : Inst → Inst → Bool) (dg : DepGraph),
      omittableInstructions false dom dg f = baselineOmit f.insts := by
  constructor
  · unfold baselineOmit
    rw [List.mem_filter, baselineOk_iff]
  · intro dom dg
    rfl

/-- A value whose address is passed to an indirect call: the escape
scan leaves it in the local set because the argument loop only runs for
calls with a known callee. -/
def cx4v : Value :=
  ⟨4, "p"⟩

/-- The indirect call taking `cx4v` as argument. -/
def cx4call : Inst :=
  .call 21 none [cx4v]

/-- Function refuting C4. -/
def cx4f : Func :=
  ⟨"q", [⟨0, [.dbgDeclare 20 cx4v, cx4call, .other 22]⟩]⟩

/-- C4 counterexample: after the locality classifier finishes for
`cx4f`, the value `cx4v` remains in the local set although it occurs as
an argument operand of the call instruction `cx4call` — the claim's
"any call instruction" fails on calls without a known callee, whose
arguments the scan never erases. -/
theorem c4_counterexample :
    cx4call ∈ cx4f.insts ∧
    (∃ args, cx4call = Inst.call 21 none args ∧ cx4v ∈ args) ∧
    cx4v ∈ localValues cx4f.insts := by
  refine ⟨by decide, ⟨[cx4v], rfl, by decide⟩, by decide⟩

/-- C4 amended: after the locality classifier finishes, no value
remaining in the local set occurs as an argument operand of any call
instruction *whose callee is known* (a direct call; the call's own
invocation-target operand is not an argument operand), and no value
remaining in the local set occurs as the stored-value operand of any
store instruction. -/
theorem c4_escape_amended (f : Func) :
    (∀ i ∈ f.insts, ∀ (iid : Nat) (g : String) (args : List Value),
      i = Inst.call iid (some g) args → ∀ v ∈ args, v ∉ localValues f.insts) ∧
    (∀ i ∈ f.insts, ∀ (iid : Nat) (dl : Bool) (src dst : Value),
      i = Inst.store iid dl src dst → src ∉ localValues f.insts) := by
  constructor
  · intro i hi iid g args heq v hv
    rw [heq] at hi
    unfold localValues
    exact call_arg_escapes f.insts _ iid g args v hi hv
  · intro i hi iid dl src dst heq
    rw [heq] at hi
    unfold localValues
    exact store_src_escapes f.insts _ iid dl src dst hi

/-- A local value passed to a direct call, for the C4 witness. -/
def w4v : Value :=
  ⟨7, "y"⟩

/-- Function for the C4 witness. -/
def w4f : Func :=
  ⟨"r", [⟨0, [.dbgDeclare 40 w4v, .call 41 (some "helper") [w4v], .other 43]⟩]⟩

/-- C4 witness: the amended theorem applied at a concrete input. -/
theorem c4_witness : w4v ∉ localValues w4f.insts :=
  (c4_escape_amended w4f).1 (Inst.call 41 (some "helper") [w4v]) (by decide)
    41 "helper" [w4v] rfl w4v (by decide)

theorem mem_fst_processNode {f : Func} {dom : Inst → Inst → Bool} {dg : DepGraph}
    {st : List Inst × List (Nat × List String)} {n : DGNode} {i : Inst}
    (h : i ∈ st.1) : i ∈ (processNode f dom dg st n).1 := by
  unfold processNode
  split
  · exact h
  · split
    · split
      · split
        · exact mem_insertInst.mpr (Or.inl h)
        · exact h
      · exact h
    · exact h

theorem mem_fst_deepFold (f : Func) (dom : Inst → Inst → Bool) (dg : DepGraph) :
    ∀ (ns : List DGNode) (st : List Inst × List (Nat × List String)) (i : Inst),
      i ∈ st.1 → i ∈ (ns.foldl (processNode f dom dg) st).1
  | [], _, _, h => h
  | _ :: rest, st, i, h => by
    simp only [List.foldl_cons]
    exact mem_fst_deepFold f dom dg rest _ i (mem_fst_processNode h)

/-- C5: the omittable set computed with the deep predictability
analysis enabled contains the whole baseline omittable set computed
with it disabled — the node fold only ever inserts into the set. -/
theorem c5_monotonicity (dom : Inst → Inst → Bool) (dg : DepGraph) (f : Func)
    (i : Inst) (h : i ∈ omittableInstructions false dom dg f) :
    i ∈ omittableInstructions true dom dg f :=
  mem_fst_deepFold f dom dg dg.nodes (baselineOmit f.insts, []) i h

/-- A local read-only value, for the C5 witness. -/
def w5v : Value :=
  ⟨8, "z"⟩

/-- The omittable load of the C5 witness. -/
def w5ld : Inst :=
  .load 60 w5v

/-- Function for the C5 witness. -/
def w5f : Func :=
  ⟨"s", [⟨0, [.dbgDeclare 61 w5v, w5ld, .other 62]⟩]⟩

/-- The everywhere-false dominance relation. -/
def domF : Inst → Inst → Bool :=
  fun _ _ => false

/-- The empty dependence graph. -/
def dgE : DepGraph :=
  ⟨[], []⟩

/-- C5 witness: the monotonicity theorem applied at a concrete input. -/
theorem c5_witness :
    w5ld ∈ omittableInstructions false domF dgE w5f ∧
    w5ld ∈ omittableInstructions true domF dgE w5f :=
  ⟨by decide, c5_monotonicity domF dgE w5f w5ld (by decide)⟩

theorem insertStr_ne_nil (l : List String) (s : String) : insertStr l s ≠ [] := by
  cases l with
  | nil => simp [insertStr]
  | cons x r =>
    unfold insertStr
    split
    · simp
    · split
      · simp
      · simp

theorem mem_insertStr {l : List String} {s t : String} :
    t ∈ insertStr l s ↔ t ∈ l ∨ t = s := by
  induction l with
  | nil => simp [insertStr]
  | cons x r ih =>
    unfold insertStr
    split
    · constructor
      · intro h
        rcases List.mem_cons.mp h with h1 | h1
        · exact Or.inr h1
        · exact Or.inl h1
      · rintro (h1 | rfl)
        · exact List.mem_cons_of_mem _ h1
        · exact List.mem_cons_self _ _
    · split
      next heq =>
        subst heq
        constructor
        · exact Or.inl
        · rintro (h1 | rfl)
          · exact h1
          · exact List.mem_cons_self _ _
      · rw [List.mem_cons, ih, List.mem_cons]
        tauto

theorem mem_foldl_insertStr_left :
    ∀ (l acc : List String) (t : String), t ∈ acc → t ∈ l.foldl insertStr acc
  | [], _, _, h => h
  | _ :: rest, acc, t, h => by
    simp only [List.foldl_cons]
    exact mem_foldl_insertStr_left rest _ t (mem_insertStr.mpr (Or.inl h))

theorem mem_foldl_insertStr :
    ∀ (l acc : List String) (t : String), t ∈ l → t ∈ l.foldl insertStr acc
  | [], _, _, h => by simp at h
  | _ :: rest, acc, t, h => by
    simp only [List.foldl_cons]
    rcases List.mem_cons.mp h with rfl | h1
    · exact mem_foldl_insertStr_left rest _ t (mem_insertStr.mpr (Or.inr rfl))
    · exact mem_foldl_insertStr rest _ t h1

theorem foldl_insertStr_ne_nil :
    ∀ (l acc : List String), acc ≠ [] → l.foldl insertStr acc ≠ []
  | [], _, h => h
  | s :: rest, acc, _ => by
    simp only [List.foldl_cons]
    exact foldl_insertStr_ne_nil rest _ (insertStr_ne_nil acc s)

theorem tmpDepsOf_ne_nil {outs ins : List DGEdge} (h : edgeDescs outs ins ≠ []) :
    tmpDepsOf outs ins ≠ [] := by
  unfold tmpDepsOf
  cases hed : edgeDescs outs ins with
  | nil => exact absurd hed h
  | cons d rest =>
    simp only [List.foldl_cons]
    exact foldl_insertStr_ne_nil rest _ (insertStr_ne_nil [] d)

theorem mem_tmpDepsOf {outs ins : List DGEdge} {d : String}
    (h : d ∈ edgeDescs outs ins) : d ∈ tmpDepsOf outs ins :=
  mem_foldl_insertStr _ _ _ h

theorem lookupDeps_cons (k : Nat) (s : List String)
    (rest : List (Nat × List String)) (b : Nat) :
    lookupDeps ((k, s) :: rest) b = if k = b then s else lookupDeps rest b := by
  unfold lookupDeps
  by_cases h : k = b
  · rw [List.find?_cons_of_pos, if_pos h]
    · rfl
    · simpa using h
  · rw [List.find?_cons_of_neg, if_neg h]
    simpa using h

theorem mem_lookupDeps_mapMerge :
    ∀ (m : List (Nat × List String)) (b : Nat) (tmp : List String) (d : String),
      d ∈ tmp → d ∈ lookupDeps (mapMerge m b tmp) b
  | [], b, tmp, d, hd => by
    simp only [mapMerge]
    rw [lookupDeps_cons, if_pos rfl]
    exact hd
  | (k, s) :: rest, b, tmp, d, hd => by
    unfold mapMerge
    split
    · rw [lookupDeps_cons, if_pos rfl]
      exact hd
    · split
      next h1 h2 =>
        rw [lookupDeps_cons, if_pos h2.symm]
        exact mem_foldl_insertStr tmp s d hd
      next h1 h2 =>
        rw [lookupDeps_cons, if_neg (fun he => h2 he.symm)]
        exact mem_lookupDeps_mapMerge rest b tmp d hd

/-- C2: all-or-nothing per dependence-graph node.  If any edge touching
an item-bearing node fails the dominance test (equal endpoints, or the
required direction of dominance does not hold), the node's processing
changes nothing: the operation is not added and no descriptor of its
edges reaches any block's set.  If every edge passes, the node has at
least one dependence edge (an edge whose other endpoint carries an
operation), and its address operand is local, the operation is added to
the omittable set and every descriptor of its item-bearing edges is
merged into its enclosing block's entry of the map. -/
theorem c2_all_or_nothing (f : Func) (dom : Inst → Inst → Bool) (dg : DepGraph)
    (st : List Inst × List (Nat × List String)) (n : DGNode) (i : Inst)
    (hitem : n.item = some i) :
    (((∃ e ∈ outEdges dg n, ∃ j, e.edst.item = some j ∧ (i = j ∨ dom j i = false)) ∨
      (∃ e ∈ inEdges dg n, ∃ j, e.esrc.item = some j ∧ (i = j ∨ dom i j = false))) →
      processNode f dom dg st n = st) ∧
    (edgesOk dom i (outEdges dg n) (inEdges dg n) = true →
      ((∃ e ∈ outEdges dg n, (e.edst.item).isSome) ∨
       (∃ e ∈ inEdges dg n, (e.esrc.item).isSome)) →
      ∀ v, addrOperand? i = some v → v ∈ localValues f.insts →
        i ∈ (processNode f dom dg st n).1 ∧
        ∀ d ∈ edgeDescs (outEdges dg n) (inEdges dg n),
          d ∈ lookupDeps (processNode f dom dg st n).2 (parentIdOf f i)) := by
  constructor
  · intro hbad
    have hok : edgesOk dom i (outEdges dg n) (inEdges dg n) = false := by
      unfold edgesOk
      rcases hbad with ⟨e, he, j, hj, hcond⟩ | ⟨e, he, j, hj, hcond⟩
      · have hedge : edgeOkOut dom i e = false := by
          unfold edgeOkOut
          rw [hj]
          rcases hcond with rfl | hdom
          · simp
          · simp [hdom]
        have hall : (outEdges dg n).all (edgeOkOut dom i) = false := by
          by_contra hcon
          rw [Bool.not_eq_false] at hcon
          have := List.all_eq_true.mp hcon e he
          rw [this] at hedge
          exact Bool.noConfusion hedge
        rw [hall, Bool.false_and]
      · have hedge : edgeOkIn dom i e = false := by
          unfold edgeOkIn
          rw [hj]
          rcases hcond with rfl | hdom
          · simp
          · simp [hdom]
        have hall : (inEdges dg n).all (edgeOkIn dom i) = false := by
          by_contra hcon
          rw [Bool.not_eq_false] at hcon
          have := List.all_eq_true.mp hcon e he
          rw [this] at hedge
          exact Bool.noConfusion hedge
        rw [hall, Bool.and_false]
    simp [processNode, hitem, hok]
  · intro hok hsome v haddr hlv
    have hdescs : edgeDescs (outEdges dg n) (inEdges dg n) ≠ [] := by
      rcases hsome with ⟨e, he, hs⟩ | ⟨e, he, hs⟩
      · obtain ⟨j, hj⟩ := Option.isSome_iff_exists.mp hs
        apply List.ne_nil_of_mem (a := e.descr)
        unfold edgeDescs
        apply List.mem_append_left
        apply List.mem_filterMap.mpr
        exact ⟨e, he, by rw [hj]; rfl⟩
      · obtain ⟨j, hj⟩ := Option.isSome_iff_exists.mp hs
        apply List.ne_nil_of_mem (a := e.descr)
        unfold edgeDescs
        apply List.mem_append_right
        apply List.mem_filterMap.mpr
        exact ⟨e, he, by rw [hj]; rfl⟩
    have hcond : tmpDepsOf (outEdges dg n) (inEdges dg n) ≠ [] ∧
        v ∈ localValues f.insts := ⟨tmpDepsOf_ne_nil hdescs, hlv⟩
    have heq : processNode f dom dg st n =
        (insertInst st.1 i,
          mapMerge st.2 (parentIdOf f i) (tmpDepsOf (outEdges dg n) (inEdges dg n))) := by
      simp only [processNode, hitem, hok, haddr, if_true]
      rw [if_pos hcond]
    rw [heq]
    constructor
    · exact mem_insertInst.mpr (Or.inr rfl)
    · intro d hd
      exact mem_lookupDeps_mapMerge st.2 (parentIdOf f i) _ d (mem_tmpDepsOf hd)

/-- A local value read twice, for the C2 witness. -/
def w2v : Value :=
  ⟨9, "w"⟩

/-- First load of the C2 witness. -/
def w2ld1 : Inst :=
  .load 70 w2v

/-- Second load of the C2 witness. -/
def w2ld2 : Inst :=
  .load 71 w2v

/-- Function for the C2 witness. -/
def w2f : Func :=
  ⟨"t", [⟨0, [.dbgDeclare 72 w2v, w2ld1, w2ld2, .other 73]⟩]⟩

/-- Graph node for the first load. -/
def w2n1 : DGNode :=
  ⟨1, some w2ld1⟩

/-- Graph node for the second load. -/
def w2n2 : DGNode :=
  ⟨2, some w2ld2⟩

/-- Dependence graph for the C2 witness: one edge between the loads. -/
def w2dg : DepGraph :=
  ⟨[w2n1, w2n2], [⟨w2n1, w2n2, "RAW"⟩]⟩

/-- The everywhere-true dominance relation. -/
def domT : Inst → Inst → Bool :=
  fun _ _ => true

/-- C2 witness: both halves of the all-or-nothing theorem applied at
concrete inputs — under the false dominance relation the node is
abandoned, under the true one its operation is added. -/
theorem c2_witness :
    processNode w2f domF w2dg ([], []) w2n1 = ([], []) ∧
    w2ld1 ∈ (processNode w2f domT w2dg ([], []) w2n1).1 :=
  ⟨(c2_all_or_nothing w2f domF w2dg ([], []) w2n1 w2ld1 rfl).1 (by decide),
   ((c2_all_or_nothing w2f domT w2dg ([], []) w2n1 w2ld1 rfl).2 (by decide)
      (by decide) w2v rfl (by decide)).1⟩

theorem deepFold_mem_inv (f : Func) (dom : Inst → Inst → Bool) (dg : DepGraph) :
    ∀ (ns : List DGNode), (∀ n ∈ ns, n ∈ dg.nodes) →
      ∀ (st : List Inst × List (Nat × List String)) (i : Inst),
        i ∈ (ns.foldl (processNode f dom dg) st).1 →
        i ∈ st.1 ∨
          ∃ n ∈ dg.nodes, n.item = some i ∧
            edgesOk dom i (outEdges dg n) (inEdges dg n) = true ∧
            tmpDepsOf (outEdges dg n) (inEdges dg n) ≠ [] ∧
            ∃ v, addrOperand? i = some v ∧ v ∈ localValues f.insts
  | [], _, _, _, h => Or.inl h
  | n :: rest, hsub, st, i, h => by
    simp only [List.foldl_cons] at h
    rcases deepFold_mem_inv f dom dg rest
        (fun x hx => hsub x (List.mem_cons_of_mem _ hx)) _ i h with h1 | h1
    · unfold processNode at h1
      split at h1
      · exact Or.inl h1
      next i' hitem =>
        split at h1
        next hok =>
          split at h1
          next v haddr =>
            split at h1
            next hcond =>
              rcases mem_insertInst.mp h1 with h2 | h2
              · exact Or.inl h2
              · subst h2
                exact Or.inr ⟨n, hsub n (List.mem_cons_self _ _), hitem, hok,
                  hcond.1, v, haddr, hcond.2⟩
            next => exact Or.inl h1
          next => exact Or.inl h1
        next => exact Or.inl h1
    · exact Or.inr h1

/-- C1 amended: every instruction whose preceding tracking call the
rewriter deletes is a memory operation whose address is either local
and never written by a debug-location-bearing store, or the
return-value slot named `"retval"`, or local with all its dependence
edges proven statically ordered by the dominance analysis.  (The
original claim lacked the `"retval"` disjunct, see the
counterexample.) -/
theorem c1_soundness_amended (deep : Bool) (dom : Inst → Inst → Bool)
    (dg : DepGraph) (f : Func) (tblLen : Nat) (bb : BBlock) (c i : Inst)
    (hbb : bb ∈ (if deep then
        insertReports tblLen (deepAnalyze f dom dg (baselineOmit f.insts)).2 f
      else f).blocks)
    (_hp : (c, i) ∈ consecPairs bb.insts)
    (_hc : isDpCall c = true)
    (hi : i ∈ omittableInstructions deep dom dg f) :
    ∃ v, addrOperand? i = some v ∧
      ((v ∈ localValues f.insts ∧ v ∉ writtenValues f.insts) ∨
       v.vname = "retval" ∨
       (v ∈ localValues f.insts ∧
         ∃ n ∈ dg.nodes, n.item = some i ∧
           edgesOk dom i (outEdges dg n) (inEdges dg n) = true ∧
           tmpDepsOf (outEdges dg n) (inEdges dg n) ≠ [])) := by
  cases deep with
  | false =>
    have hib : i ∈ baselineOmit f.insts := hi
    have hx := (List.mem_filter.mp hib).2
    rw [baselineOk_iff] at hx
    obtain ⟨v, hv, hd⟩ := hx
    exact ⟨v, hv, by tauto⟩
  | true =>
    have hdeep : i ∈ (deepAnalyze f dom dg (baselineOmit f.insts)).1 := hi
    rcases deepFold_mem_inv f dom dg dg.nodes (fun _ hx => hx) _ i hdeep with h1 | h1
    · have hx := (List.mem_filter.mp h1).2
      rw [baselineOk_iff] at hx
      obtain ⟨v, hv, hd⟩ := hx
      exact ⟨v, hv, by tauto⟩
    · obtain ⟨n, hn, hitem, hok, htmp, v, haddr, hlv⟩ := h1
      exact ⟨v, haddr, Or.inr (Or.inr ⟨hlv, n, hn, hitem, hok, htmp⟩)⟩

/-- The uninstrumented temporary stored into the return slot. -/
def cx1t : Value :=
  ⟨3, "t"⟩

/-- The return-value slot; it is never in the local set of `cx1f`. -/
def cx1rv : Value :=
  ⟨2, "retval"⟩

/-- The tracking call deleted in the C1 counterexample. -/
def cx1dp : Inst :=
  .call 10 (some "__dp_write") []

/-- The store to the return slot; it is omittable via the `"retval"`
name alone. -/
def cx1st : Inst :=
  .store 11 true cx1t cx1rv

/-- Function refuting C1 as stated. -/
def cx1f : Func :=
  ⟨"g", [⟨0, [cx1dp, cx1st, .other 12]⟩]⟩

/-- C1 counterexample: in `cx1f` the store `cx1st` has its preceding
tracking call `cx1dp` deleted (the function's removed counter is 1),
yet its address operand `cx1rv` is *not* provably local (the local set
is empty) and it is written by a debug-location-bearing store, with no
dependence analysis involved — omission happens solely because the
operand is named `"retval"`, contradicting the claim's requirement that
the address be provably local. -/
theorem c1_counterexample :
    (cx1dp, cx1st) ∈ consecPairs (blockInsts cx1f 0) ∧
    isDpCall cx1dp = true ∧
    cx1st ∈ omittableInstructions false domF dgE cx1f ∧
    addrOperand? cx1st = some cx1rv ∧
    cx1rv ∉ localValues cx1f.insts ∧
    cx1rv ∈ writtenValues cx1f.insts ∧
    (processFunc false domF dgE 0 cx1f).removed = 1 := by
  decide

/-- A tracked local value, for the C1 witness. -/
def w1v : Value :=
  ⟨10, "u"⟩

/-- The omittable load of the C1 witness. -/
def w1ld : Inst :=
  .load 80 w1v

/-- The tracking call preceding the load of the C1 witness. -/
def w1dp : Inst :=
  .call 81 (some "__dp_read") []

/-- Function for the C1 witness. -/
def w1f : Func :=
  ⟨"v1", [⟨0, [.dbgDeclare 82 w1v, w1dp, w1ld, .other 83]⟩]⟩

/-- C1 witness: the amended soundness theorem applied at a concrete
input. -/
theorem c1_witness :
    ∃ v, addrOperand? w1ld = some v ∧
      ((v ∈ localValues w1f.insts ∧ v ∉ writtenValues w1f.insts) ∨
       v.vname = "retval" ∨
       (v ∈ localValues w1f.insts ∧
         ∃ n ∈ dgE.nodes, n.item = some w1ld ∧
           edgesOk domF w1ld (outEdges dgE n) (inEdges dgE n) = true ∧
           tmpDepsOf (outEdges dgE n) (inEdges dgE n) ≠ [])) :=
  c1_soundness_amended false domF dgE w1f 0 ⟨0, [.dbgDeclare 82 w1v, w1dp, w1ld, .other 83]⟩
    w1dp w1ld (by decide) (by decide) (by decide) (by decide)

theorem deleteTracking_length_le (om : List Inst) :
    ∀ l : List Inst, (deleteTracking om l).length ≤ l.length
  | [] => by simp [deleteTracking]
  | [_] => by simp [deleteTracking]
  | c :: i :: rest => by
    simp only [deleteTracking]
    split
    · exact le_trans (deleteTracking_length_le om (i :: rest)) (by simp)
    · simp only [List.length_cons]
      exact Nat.succ_le_succ (deleteTracking_length_le om (i :: rest))

theorem removed_le_dpCount (om : List Inst) :
    ∀ l : List Inst,
      l.length - (deleteTracking om l).length ≤ (l.filter isDpCall).length
  | [] => by simp [deleteTracking]
  | [_] => by simp [deleteTracking]
  | c :: i :: rest => by
    simp only [deleteTracking]
    split
    next hcond =>
      rw [Bool.and_eq_true] at hcond
      rw [List.filter_cons_of_pos hcond.1]
      have h1 := removed_le_dpCount om (i :: rest)
      have h2 := deleteTracking_length_le om (i :: rest)
      simp only [List.length_cons] at h1 h2 ⊢
      omega
    · have h1 := removed_le_dpCount om (i :: rest)
      cases hc : isDpCall c
      · rw [List.filter_cons_of_neg (by simp [hc])]
        simp only [List.length_cons] at h1 ⊢
        omega
      · rw [List.filter_cons_of_pos hc]
        simp only [List.length_cons] at h1 ⊢
        omega

theorem countDp_aux : ∀ bs : List BBlock,
    (((bs.map BBlock.insts).flatten).filter isDpCall).length
      = (bs.map (fun b => (b.insts.filter isDpCall).length)).sum
  | [] => rfl
  | b :: rest => by
    simp only [List.map_cons, List.flatten_cons, List.filter_append,
      List.length_append, List.sum_cons]
    rw [countDp_aux rest]

theorem countDp_eq_sum (f : Func) :
    countDp f = (f.blocks.map (fun b => (b.insts.filter isDpCall).length)).sum := by
  unfold countDp Func.insts
  exact countDp_aux f.blocks

theorem removedIn_le_countDp (om : List Inst) (f : Func) :
    removedIn om f ≤ countDp f := by
  unfold removedIn
  rw [countDp_eq_sum]
  apply List.sum_le_sum
  intro b _
  exact removed_le_dpCount om b.insts

theorem filter_insertLast (p : Inst → Bool) (c : Inst) (hc : p c = false) :
    ∀ l : List Inst, (insertLast l c).filter p = l.filter p
  | [] => by
    simp only [insertLast]
    rw [List.filter_cons_of_neg (by simp [hc])]
  | [t] => by
    simp only [insertLast]
    rw [List.filter_cons_of_neg (by simp [hc])]
  | x :: y :: r => by
    simp only [insertLast]
    cases hx : p x
    · rw [List.filter_cons_of_neg (by simp [hx]), List.filter_cons_of_neg (by simp [hx])]
      exact filter_insertLast p c hc (y :: r)
    · rw [List.filter_cons_of_pos hx, List.filter_cons_of_pos hx]
      rw [filter_insertLast p c hc (y :: r)]

theorem countDp_insertBeforeTerm (f : Func) (bid : Nat) (c : Inst)
    (hc : isDpCall c = false) :
    countDp (insertBeforeTerm f bid c) = countDp f := by
  rw [countDp_eq_sum, countDp_eq_sum]
  unfold insertBeforeTerm
  simp only [List.map_map]
  apply congrArg
  apply List.map_congr_left
  intro b _
  by_cases hb : b.bid = bid
  · simp only [Function.comp, if_pos hb]
    exact congrArg List.length (filter_insertLast isDpCall c hc b.insts)
  · simp only [Function.comp, if_neg hb]

theorem countDp_insertReports :
    ∀ (m : List (Nat × List String)) (tblLen : Nat) (f : Func),
      countDp (insertReports tblLen m f) = countDp f
  | [], _, _ => rfl
  | (bid, s) :: rest, tblLen, f => by
    simp only [insertReports]
    rw [countDp_insertReports rest (tblLen + 1) _]
    exact countDp_insertBeforeTerm f bid _ rfl

theorem processFunc_removed_le (deep : Bool) (dom : Inst → Inst → Bool)
    (dg : DepGraph) (tblLen : Nat) (f : Func) :
    (processFunc deep dom dg tblLen f).removed ≤ (processFunc deep dom dg tblLen f).total := by
  unfold processFunc
  split
  · exact Nat.le_refl 0
  · have h2 : countDp (if deep then
        insertReports tblLen (deepAnalyze f dom dg (baselineOmit f.insts)).2 f
      else f) = countDp f := by
      cases deep
      · rfl
      · exact countDp_insertReports _ tblLen f
    exact le_trans (removedIn_le_countDp _ _) (le_of_eq h2)

theorem runFuncsAux_removed_le (deep : Bool) :
    ∀ (fs : List Func) (ans : List ((Inst → Inst → Bool) × DepGraph))
      (tbl : List (List String)),
      (runFuncsAux deep ans tbl fs).removed ≤ (runFuncsAux deep ans tbl fs).total
  | [], _, _ => Nat.le_refl 0
  | f :: rest, ans, tbl => by
    simp only [runFuncsAux]
    exact Nat.add_le_add (processFunc_removed_le deep _ _ _ f)
      (runFuncsAux_removed_le deep rest ans.tail _)

/-- C10: the removed-instrumentations counter never exceeds the
total-instrumentations counter — every deleted call is a direct
`__dp_read`/`__dp_write` call of its function, all of which were
counted into the total. -/
theorem c10_removed_le_total (deep : Bool)
    (ans : List ((Inst → Inst → Bool) × DepGraph)) (M : LlvmModule) :
    (runOnModule deep ans M).removed ≤ (runOnModule deep ans M).total := by
  cases deep
  · exact runFuncsAux_removed_le false M.funcs ans []
  · exact runFuncsAux_removed_le true M.funcs ans []

theorem deleteTracking_cons2 (om : List Inst) (c i : Inst) (rest : List Inst) :
    deleteTracking om (c :: i :: rest) =
      if isDpCall c && decide (i ∈ om) then deleteTracking om (i :: rest)
      else c :: deleteTracking om (i :: rest) := rfl

theorem insertLast_cons2 (x y : Inst) (r : List Inst) (c : Inst) :
    insertLast (x :: y :: r) c = x :: insertLast (y :: r) c := rfl

theorem insertLast_one (t c : Inst) : insertLast [t] c = [c, t] := rfl

theorem deleteTracking_one (om : List Inst) (t : Inst) :
    deleteTracking om [t] = [t] := rfl

theorem deleteTracking_ne_nil (om : List Inst) :
    ∀ l : List Inst, l ≠ [] → deleteTracking om l ≠ []
  | [], h => absurd rfl h
  | [_], _ => by simp [deleteTracking]
  | _ :: i :: rest, _ => by
    rw [deleteTracking_cons2]
    split
    · exact deleteTracking_ne_nil om (i :: rest) (by simp)
    · simp

theorem mem_of_getLast?_eq {l : List Inst} {t : Inst} (h : l.getLast? = some t) :
    t ∈ l := by
  rcases List.mem_getLast?_eq_getLast (Option.mem_def.mpr h) with ⟨hne, rfl⟩
  exact List.getLast_mem hne

theorem deleteTracking_insertLast (om : List Inst) (c : Inst)
    (hc : isDpCall c = false) (hcm : c ∉ om) :
    ∀ l : List Inst, (∀ t, l.getLast? = some t → t ∉ om) →
      deleteTracking om (insertLast l c) = insertLast (deleteTracking om l) c
  | [], _ => rfl
  | [t], _ => by
    show deleteTracking om [c, t] = [c, t]
    rw [deleteTracking_cons2, hc, Bool.false_and, if_neg Bool.false_ne_true]
    rfl
  | [x, y], hlast => by
    have hy : y ∉ om := hlast y (by simp)
    simp [deleteTracking_cons2, insertLast_cons2, insertLast_one, deleteTracking_one,
      hc, decide_eq_false hcm, decide_eq_false hy]
  | x :: y :: z :: zs, hlast => by
    have hlast2 : ∀ t, (y :: z :: zs).getLast? = some t → t ∉ om := by
      intro t ht
      apply hlast
      rw [List.getLast?_cons_cons]
      exact ht
    rw [insertLast_cons2, insertLast_cons2]
    conv_lhs => rw [deleteTracking_cons2]
    conv_rhs => rw [deleteTracking_cons2]
    by_cases hcond : (isDpCall x && decide (y ∈ om)) = true
    · rw [if_pos hcond, if_pos hcond]
      exact deleteTracking_insertLast om c hc hcm (y :: z :: zs) hlast2
    · rw [if_neg hcond, if_neg hcond]
      cases hw : deleteTracking om (y :: z :: zs) with
      | nil => exact absurd hw (deleteTracking_ne_nil om (y :: z :: zs) (by simp))
      | cons w ws =>
        rw [insertLast_cons2]
        have hrec := deleteTracking_insertLast om c hc hcm (y :: z :: zs) hlast2
        rw [hw] at hrec
        exact congrArg (x :: ·) hrec

theorem mem_keys_mapMerge :
    ∀ (m : List (Nat × List String)) (b : Nat) (tmp : List String) (x : Nat),
      x ∈ (mapMerge m b tmp).map Prod.fst → x ∈ m.map Prod.fst ∨ x = b
  | [], _, _, x, h => by
    simp [mapMerge] at h
    exact Or.inr h
  | (k, s) :: rest, b, tmp, x, h => by
    unfold mapMerge at h
    split at h
    · simp only [List.map_cons, List.mem_cons] at h ⊢
      rcases h with rfl | h
      · exact Or.inr rfl
      · exact Or.inl h
    · split at h
      next =>
        simp only [List.map_cons, List.mem_cons] at h ⊢
        exact Or.inl h
      next =>
        simp only [List.map_cons, List.mem_cons] at h ⊢
        rcases h with rfl | h
        · exact Or.inl (Or.inl rfl)
        · rcases mem_keys_mapMerge rest b tmp x h with h2 | h2
          · exact Or.inl (Or.inr h2)
          · exact Or.inr h2

theorem mapMerge_pairwise :
    ∀ (m : List (Nat × List String)) (b : Nat) (tmp : List String),
      List.Pairwise (· < ·) (m.map Prod.fst) →
      List.Pairwise (· < ·) ((mapMerge m b tmp).map Prod.fst)
  | [], _, _, _ => by simp [mapMerge]
  | (k, s) :: rest, b, tmp, h => by
    simp only [List.map_cons, List.pairwise_cons] at h
    obtain ⟨hk, hrest⟩ := h
    unfold mapMerge
    split
    next hlt =>
      simp only [List.map_cons, List.pairwise_cons]
      refine ⟨?_, ?_⟩
      · intro x hx
        simp only [List.mem_cons] at hx
        rcases hx with rfl | hx
        · exact hlt
        · exact lt_trans hlt (hk x hx)
      · exact ⟨hk, hrest⟩
    · split
      next =>
        simp only [List.map_cons, List.pairwise_cons]
        exact ⟨hk, hrest⟩
      next hlt heq =>
        have hkb : k < b := by omega
        simp only [List.map_cons, List.pairwise_cons]
        refine ⟨?_, mapMerge_pairwise rest b tmp hrest⟩
        intro x hx
        rcases mem_keys_mapMerge rest b tmp x hx with h2 | h2
        · exact hk x h2
        · rw [h2]
          exact hkb

theorem mapMerge_values_ne_nil :
    ∀ (m : List (Nat × List String)) (b : Nat) (tmp : List String),
      (∀ p ∈ m, p.2 ≠ []) → tmp ≠ [] → ∀ p ∈ mapMerge m b tmp, p.2 ≠ []
  | [], _, _, _, ht, p, hp => by
    simp [mapMerge] at hp
    rw [hp]
    exact ht
  | (k, s) :: rest, b, tmp, hm, ht, p, hp => by
    unfold mapMerge at hp
    split at hp
    · rcases List.mem_cons.mp hp with rfl | hp2
      · exact ht
      · exact hm p hp2
    · split at hp
      · rcases List.mem_cons.mp hp with rfl | hp2
        · exact foldl_insertStr_ne_nil tmp s (hm (k, s) (List.mem_cons_self _ _))
        · exact hm p (List.mem_cons_of_mem _ hp2)
      · rcases List.mem_cons.mp hp with rfl | hp2
        · exact hm (k, s) (List.mem_cons_self _ _)
        · exact mapMerge_values_ne_nil rest b tmp
            (fun q hq => hm q (List.mem_cons_of_mem _ hq)) ht p hp2

theorem processNode_map_inv (f : Func) (dom : Inst → Inst → Bool) (dg : DepGraph)
    (st : List Inst × List (Nat × List String)) (n : DGNode)
    (h1 : List.Pairwise (· < ·) (st.2.map Prod.fst))
    (h2 : ∀ p ∈ st.2, p.2 ≠ []) :
    List.Pairwise (· < ·) ((processNode f dom dg st n).2.map Prod.fst) ∧
    ∀ p ∈ (processNode f dom dg st n).2, p.2 ≠ [] := by
  unfold processNode
  split
  · exact ⟨h1, h2⟩
  · split
    · split
      · split
        next hcond =>
          exact ⟨mapMerge_pairwise _ _ _ h1,
            mapMerge_values_ne_nil _ _ _ h2 hcond.1⟩
        · exact ⟨h1, h2⟩
      · exact ⟨h1, h2⟩
    · exact ⟨h1, h2⟩

theorem deepFold_map_inv (f : Func) (dom : Inst → Inst → Bool) (dg : DepGraph) :
    ∀ (ns : List DGNode) (st : List Inst × List (Nat × List String)),
      List.Pairwise (· < ·) (st.2.map Prod.fst) → (∀ p ∈ st.2, p.2 ≠ []) →
      List.Pairwise (· < ·) ((ns.foldl (processNode f dom dg) st).2.map Prod.fst) ∧
      ∀ p ∈ (ns.foldl (processNode f dom dg) st).2, p.2 ≠ []
  | [], _, h1, h2 => ⟨h1, h2⟩
  | n :: rest, st, h1, h2 => by
    simp only [List.foldl_cons]
    obtain ⟨g1, g2⟩ := processNode_map_inv f dom dg st n h1 h2
    exact deepFold_map_inv f dom dg rest _ g1 g2

theorem keyIdx_eq_none :
    ∀ (m : List (Nat × List String)) (b : Nat),
      b ∉ m.map Prod.fst → keyIdx b m = none
  | [], _, _ => rfl
  | (k, s) :: rest, b, h => by
    simp only [List.map_cons, List.mem_cons] at h
    push_neg at h
    unfold keyIdx
    rw [if_neg (fun he => h.1 he.symm), keyIdx_eq_none rest b h.2]
    rfl

theorem insertReports_blocks :
    ∀ (m : List (Nat × List String)) (tblLen : Nat) (f : Func),
      (m.map Prod.fst).Nodup →
      (insertReports tblLen m f).blocks = f.blocks.map (fun bb =>
        match keyIdx bb.bid m with
        | some j => ⟨bb.bid, insertLast bb.insts (reportCall (tblLen + j))⟩
        | none => bb)
  | [], tblLen, f, _ => by
    simp [insertReports, keyIdx]
  | (k, s) :: rest, tblLen, f, hnd => by
    have hnd2 : (rest.map Prod.fst).Nodup := by
      simp only [List.map_cons, List.nodup_cons] at hnd
      exact hnd.2
    have hknotin : k ∉ rest.map Prod.fst := by
      simp only [List.map_cons, List.nodup_cons] at hnd
      exact hnd.1
    simp only [insertReports]
    rw [insertReports_blocks rest (tblLen + 1) _ hnd2]
    simp only [insertBeforeTerm, List.map_map]
    apply List.map_congr_left
    intro bb _
    simp only [Function.comp_apply]
    by_cases hbk : bb.bid = k
    · rw [if_pos hbk, hbk, keyIdx_eq_none rest k hknotin]
      have hself : keyIdx k ((k, s) :: rest) = some 0 := by
        unfold keyIdx
        rw [if_pos rfl]
      rw [hself]
      rfl
    · rw [if_neg hbk]
      have hstep : keyIdx bb.bid ((k, s) :: rest) =
          if k = bb.bid then some 0 else (keyIdx bb.bid rest).map (· + 1) := rfl
      rw [hstep, if_neg (fun he => hbk he.symm)]
      cases hki : keyIdx bb.bid rest with
      | none => rfl
      | some j =>
        simp only [Option.map_some']
        have harith : tblLen + 1 + j = tblLen + (j + 1) := by omega
        rw [harith]

theorem baselineOmit_addr_isSome {insts : List Inst} {i : Inst}
    (h : i ∈ baselineOmit insts) : (addrOperand? i).isSome := by
  have hx := (List.mem_filter.mp h).2
  rw [baselineOk_iff] at hx
  obtain ⟨v, hv, _⟩ := hx
  rw [hv]
  rfl

theorem deep_addr_isSome (f : Func) (dom : Inst → Inst → Bool) (dg : DepGraph)
    {i : Inst} (h : i ∈ (deepAnalyze f dom dg (baselineOmit f.insts)).1) :
    (addrOperand? i).isSome := by
  rcases deepFold_mem_inv f dom dg dg.nodes (fun _ hx => hx) _ i h with h1 | h1
  · exact baselineOmit_addr_isSome h1
  · obtain ⟨n, _, _, _, _, v, hv, _⟩ := h1
    rw [hv]
    rfl

theorem reportCall_not_mem_deep (f : Func) (dom : Inst → Inst → Bool)
    (dg : DepGraph) (k : Nat) :
    reportCall k ∉ (deepAnalyze f dom dg (baselineOmit f.insts)).1 := by
  intro h
  have := deep_addr_isSome f dom dg h
  simp [reportCall, addrOperand?] at this

/-- C6 amended: for every function processed with the deep analysis,
the conditional-dependence map holds exactly one entry per basic block
with a nonempty descriptor set, the entries are ordered by *block
identity* (the `std::map`'s pointer key order — NOT first-encountered
order, see the counterexample); each keyed block receives exactly one
`__dp_report_bb` call, placed immediately before its terminator,
carrying the running table length plus the entry's position; and the
entries are appended to the module table in that same key order.  Given
the same input (block identities included), the result is the same on
every run. -/
theorem c6_table_and_reports_amended (dom : Inst → Inst → Bool) (dg : DepGraph)
    (f : Func) (tblLen : Nat)
    (hterm : ∀ bb ∈ f.blocks, ∀ t ∈ bb.insts, bb.insts.getLast? = some t →
        t ∉ (deepAnalyze f dom dg (baselineOmit f.insts)).1)
    (hcnt : ¬instCount f = 0) :
    List.Pairwise (· < ·) ((deepAnalyze f dom dg (baselineOmit f.insts)).2.map Prod.fst) ∧
    (∀ p ∈ (deepAnalyze f dom dg (baselineOmit f.insts)).2, p.2 ≠ []) ∧
    (processFunc true dom dg tblLen f).fnOut.blocks =
      f.blocks.map (fun bb =>
        match keyIdx bb.bid (deepAnalyze f dom dg (baselineOmit f.insts)).2 with
        | some j =>
            ⟨bb.bid, insertLast
              (deleteTracking (deepAnalyze f dom dg (baselineOmit f.insts)).1 bb.insts)
              (reportCall (tblLen + j))⟩
        | none =>
            ⟨bb.bid, deleteTracking (deepAnalyze f dom dg (baselineOmit f.insts)).1 bb.insts⟩) ∧
    (processFunc true dom dg tblLen f).tblAdd =
      (deepAnalyze f dom dg (baselineOmit f.insts)).2.map Prod.snd := by
  obtain ⟨hpw, hval⟩ := deepFold_map_inv f dom dg dg.nodes (baselineOmit f.insts, [])
    (by simp) (by simp)
  refine ⟨hpw, hval, ?_, ?_⟩
  · have hnd : ((deepAnalyze f dom dg (baselineOmit f.insts)).2.map Prod.fst).Nodup :=
      hpw.imp (fun h => Nat.ne_of_lt h)
    unfold processFunc
    rw [if_neg hcnt]
    show (deleteAll (omittableInstructions true dom dg f)
        (insertReports tblLen (deepAnalyze f dom dg (baselineOmit f.insts)).2 f)).blocks = _
    unfold deleteAll
    rw [insertReports_blocks _ tblLen f hnd]
    simp only [List.map_map]
    apply List.map_congr_left
    intro bb hbb
    simp only [Function.comp_apply]
    cases hki : keyIdx bb.bid (deepAnalyze f dom dg (baselineOmit f.insts)).2 with
    | none => rfl
    | some j =>
      have hcomm := deleteTracking_insertLast
        (deepAnalyze f dom dg (baselineOmit f.insts)).1 (reportCall (tblLen + j)) rfl
        (reportCall_not_mem_deep f dom dg (tblLen + j)) bb.insts
        (fun t ht => hterm bb hbb t (mem_of_getLast?_eq ht) ht)
      show BBlock.mk bb.bid (deleteTracking (deepAnalyze f dom dg (baselineOmit f.insts)).1
          (insertLast bb.insts (reportCall (tblLen + j)))) = _
      rw [hcomm]
  · unfold processFunc
    rw [if_neg hcnt]
    rfl

/-- Local value of block 5 in the C6 counterexample. -/
def cx6a : Value :=
  ⟨5, "a"⟩

/-- Local value of block 3 in the C6 counterexample. -/
def cx6b : Value :=
  ⟨6, "b"⟩

/-- The load in block 5, whose graph node is processed first. -/
def cx6l5 : Inst :=
  .load 31 cx6a

/-- The load in block 3, whose graph node is processed second. -/
def cx6l3 : Inst :=
  .load 34 cx6b

/-- Function for the C6 counterexample: block 5 precedes block 3 in
layout, and the analysis encounters block 5 first, but the map iterates
3 before 5. -/
def cx6f : Func :=
  ⟨"h", [⟨5, [.dbgDeclare 30 cx6a, cx6l5, .other 32]⟩,
         ⟨3, [.dbgDeclare 33 cx6b, cx6l3, .other 35]⟩]⟩

/-- Graph node of the block-5 load. -/
def cx6n1 : DGNode :=
  ⟨1, some cx6l5⟩

/-- Graph node of the block-3 load. -/
def cx6n2 : DGNode :=
  ⟨2, some cx6l3⟩

/-- Dependence graph of the C6 counterexample: one edge between the two
loads, both directions predictable under the total dominance
relation. -/
def cx6dg : DepGraph :=
  ⟨[cx6n1, cx6n2], [⟨cx6n1, cx6n2, "A"⟩]⟩

/-- C6 counterexample: the analysis first encounters block 5, then
block 3 (`encounterBlocks` is `[5, 3]`), so under the claim's
first-encountered order block 5's entry would be at position 0 and its
report call would carry operand 0; but the map iterates in key order
`3 < 5`, so block 5's inserted `__dp_report_bb` call actually carries
operand 1 and not 0 — table-entry order is key order, not
first-encountered order. -/
theorem c6_counterexample :
    encounterBlocks cx6f domT cx6dg (baselineOmit cx6f.insts) = [5, 3] ∧
    reportCall 1 ∈ blockInsts (processFunc true domT cx6dg 0 cx6f).fnOut 5 ∧
    reportCall 0 ∉ blockInsts (processFunc true domT cx6dg 0 cx6f).fnOut 5 := by
  decide

/-- C6 witness: the amended theorem applied at a concrete input. -/
theorem c6_witness :
    List.Pairwise (· < ·)
      ((deepAnalyze cx6f domT cx6dg (baselineOmit cx6f.insts)).2.map Prod.fst) :=
  (c6_table_and_reports_amended domT cx6dg cx6f 0 (by decide) (by decide)).1

theorem consecPairs_cons_sub (a : Inst) :
    ∀ (l : List Inst) (p : Inst × Inst),
      p ∈ consecPairs l → p ∈ consecPairs (a :: l)
  | [], _, h => by simp [consecPairs] at h
  | _ :: _, _, h => List.mem_cons_of_mem _ h

theorem deleteTracking_id (om : List Inst) :
    ∀ l : List Inst,
      (∀ p ∈ consecPairs l, ¬(isDpCall p.1 = true ∧ p.2 ∈ om)) →
      deleteTracking om l = l
  | [], _ => rfl
  | [_], _ => rfl
  | c :: i :: rest, h => by
    have hni : ¬((isDpCall c && decide (i ∈ om)) = true) := by
      intro hcond
      rw [Bool.and_eq_true, decide_eq_true_eq] at hcond
      exact h (c, i) (List.mem_cons_self _ _) hcond
    rw [deleteTracking_cons2, if_neg hni,
      deleteTracking_id om (i :: rest) (fun p hp => h p (consecPairs_cons_sub c _ p hp))]

theorem processFunc_id (dom : Inst → Inst → Bool) (dg : DepGraph) (tblLen : Nat)
    (f : Func)
    (h : ∀ bb ∈ f.blocks, ∀ p ∈ consecPairs bb.insts,
        ¬(isDpCall p.1 = true ∧ p.2 ∈ baselineOmit f.insts)) :
    (processFunc false dom dg tblLen f).fnOut = f := by
  unfold processFunc
  split
  · rfl
  · show deleteAll (omittableInstructions false dom dg f) f = f
    unfold deleteAll
    have hb : f.blocks.map
        (fun b => BBlock.mk b.bid
          (deleteTracking (omittableInstructions false dom dg f) b.insts)) = f.blocks := by
      conv_rhs => rw [← List.map_id f.blocks]
      apply List.map_congr_left
      intro b hbm
      show BBlock.mk b.bid (deleteTracking (baselineOmit f.insts) b.insts) = id b
      rw [deleteTracking_id _ b.insts (h b hbm)]
      rfl
    rw [hb]

theorem runFuncs_id :
    ∀ (fs : List Func) (ans : List ((Inst → Inst → Bool) × DepGraph))
      (tbl : List (List String)),
      (∀ f ∈ fs, ∀ bb ∈ f.blocks, ∀ p ∈ consecPairs bb.insts,
        ¬(isDpCall p.1 = true ∧ p.2 ∈ baselineOmit f.insts)) →
      (runFuncsAux false ans tbl fs).funcsOut = fs
  | [], _, _, _ => rfl
  | f :: rest, ans, tbl, h => by
    simp only [runFuncsAux]
    rw [processFunc_id _ _ _ f (h f (List.mem_cons_self _ _)),
      runFuncs_id rest ans.tail _ (fun g hg => h g (List.mem_cons_of_mem _ hg))]

theorem consecPairs_mem :
    ∀ (l : List Inst) (p : Inst × Inst), p ∈ consecPairs l → p.1 ∈ l ∧ p.2 ∈ l
  | [], _, h => by simp [consecPairs] at h
  | [_], _, h => by simp [consecPairs] at h
  | a :: b :: r, p, h => by
    rcases List.mem_cons.mp h with rfl | h2
    · exact ⟨List.mem_cons_self _ _, List.mem_cons_of_mem _ (List.mem_cons_self _ _)⟩
    · obtain ⟨h3, h4⟩ := consecPairs_mem (b :: r) p h2
      exact ⟨List.mem_cons_of_mem _ h3, List.mem_cons_of_mem _ h4⟩

theorem mem_insts_of_mem_block {f : Func} {bb : BBlock} {i : Inst}
    (hbb : bb ∈ f.blocks) (hi : i ∈ bb.insts) : i ∈ f.insts := by
  unfold Func.insts
  exact List.mem_flatten.mpr ⟨bb.insts, List.mem_map_of_mem _ hbb, hi⟩

theorem map_eq_self_pointwise {α : Type} (g : α → α) :
    ∀ l : List α, l.map g = l → ∀ b ∈ l, g b = b
  | [], _, _, h => absurd h (List.not_mem_nil _)
  | x :: rest, heq, b, hb => by
    rw [List.map_cons] at heq
    injection heq with h1 h2
    rcases List.mem_cons.mp hb with rfl | hb2
    · exact h1
    · exact map_eq_self_pointwise g rest h2 b hb2

theorem deleteTracking_lt (om : List Inst) :
    ∀ l : List Inst,
      (∃ p ∈ consecPairs l, isDpCall p.1 = true ∧ p.2 ∈ om) →
      (deleteTracking om l).length < l.length
  | [], h => by
    obtain ⟨p, hp, _⟩ := h
    simp [consecPairs] at hp
  | [_], h => by
    obtain ⟨p, hp, _⟩ := h
    simp [consecPairs] at hp
  | c :: i :: rest, h => by
    obtain ⟨p, hp, hcond⟩ := h
    rw [deleteTracking_cons2]
    split
    · calc (deleteTracking om (i :: rest)).length
          ≤ (i :: rest).length := deleteTracking_length_le om _
        _ < (c :: i :: rest).length := by simp
    next hno =>
      rcases List.mem_cons.mp hp with rfl | hp2
      · exfalso
        apply hno
        rw [Bool.and_eq_true, decide_eq_true_eq]
        exact hcond
      · simp only [List.length_cons]
        exact Nat.succ_lt_succ (deleteTracking_lt om (i :: rest) ⟨p, hp2, hcond⟩)

theorem processFunc_changes (dom : Inst → Inst → Bool) (dg : DepGraph)
    (tblLen : Nat) (f : Func)
    (h : ∃ bb ∈ f.blocks, ∃ p ∈ consecPairs bb.insts,
        isDpCall p.1 = true ∧ p.2 ∈ baselineOmit f.insts) :
    (processFunc false dom dg tblLen f).fnOut ≠ f := by
  obtain ⟨bb, hbb, p, hp, hcond⟩ := h
  have hcnt : ¬instCount f = 0 := by
    intro h0
    have hm : p.1 ∈ f.insts :=
      mem_insts_of_mem_block hbb (consecPairs_mem bb.insts p hp).1
    rw [List.length_eq_zero.mp h0] at hm
    exact absurd hm (List.not_mem_nil _)
  intro heq
  unfold processFunc at heq
  rw [if_neg hcnt] at heq
  have heq2 : deleteAll (baselineOmit f.insts) f = f := heq
  have hblocks : f.blocks.map
      (fun b => BBlock.mk b.bid (deleteTracking (baselineOmit f.insts) b.insts))
      = f.blocks := congrArg Func.blocks heq2
  have hbbeq := map_eq_self_pointwise _ f.blocks hblocks bb hbb
  have hinsts : deleteTracking (baselineOmit f.insts) bb.insts = bb.insts :=
    congrArg BBlock.insts hbbeq
  have hlt := deleteTracking_lt (baselineOmit f.insts) bb.insts ⟨p, hp, hcond⟩
  rw [hinsts] at hlt
  exact Nat.lt_irrefl _ hlt

theorem runFuncs_changes :
    ∀ (fs : List Func) (ans : List ((Inst → Inst → Bool) × DepGraph))
      (tbl : List (List String)),
      (∃ f ∈ fs, ∃ bb ∈ f.blocks, ∃ p ∈ consecPairs bb.insts,
        isDpCall p.1 = true ∧ p.2 ∈ baselineOmit f.insts) →
      (runFuncsAux false ans tbl fs).funcsOut ≠ fs
  | [], _, _, h => by
    obtain ⟨f, hf, _⟩ := h
    exact absurd hf (List.not_mem_nil _)
  | f :: rest, ans, tbl, h => by
    intro heq
    simp only [runFuncsAux] at heq
    injection heq with h1 h2
    obtain ⟨g, hg, hbad⟩ := h
    rcases List.mem_cons.mp hg with rfl | hg2
    · exact processFunc_changes _ _ _ g hbad h1
    · exact runFuncs_changes rest ans.tail _ ⟨g, hg2, hbad⟩ h2

/-- C8 amended: with the deep analysis disabled, running the pass
leaves the module unchanged precisely when no baseline-omittable
operation is immediately preceded by a direct `__dp_read`/`__dp_write`
call — the deletion loop is the only rewriting in this mode, it fires
exactly on such pairs, and firing strictly shrinks a block.  A module
the rewriter has already rewritten need not satisfy this condition, so
a second run can delete further tracking calls: the counterexample
shows a once-rewritten module that a second run changes again. -/
theorem c8_rewrite_id_amended (ans : List ((Inst → Inst → Bool) × DepGraph))
    (M : LlvmModule) :
    (runOnModule false ans M).modOut = M ↔
      ∀ f ∈ M.funcs, ∀ bb ∈ f.blocks, ∀ p ∈ consecPairs bb.insts,
        ¬(isDpCall p.1 = true ∧ p.2 ∈ baselineOmit f.insts) := by
  constructor
  · intro heq
    by_contra hcon
    push_neg at hcon
    apply runFuncs_changes M.funcs ans [] hcon
    have hmk : LlvmModule.mk (runFuncsAux false ans [] M.funcs).funcsOut = M := heq
    exact congrArg LlvmModule.funcs hmk
  · intro h
    show LlvmModule.mk (runFuncsAux false ans [] M.funcs).funcsOut = M
    rw [runFuncs_id M.funcs ans [] h]

/-- The tracked local value of the C8 counterexample. -/
def cx8v : Value :=
  ⟨1, "x"⟩

/-- First (stray) tracking call of the C8 counterexample. -/
def cx8dpA : Inst :=
  .call 2 (some "__dp_read") []

/-- Second tracking call, the one the first run deletes. -/
def cx8dpB : Inst :=
  .call 3 (some "__dp_read") []

/-- The omittable load of the C8 counterexample. -/
def cx8ld : Inst :=
  .load 4 cx8v

/-- Function with two consecutive tracking calls before an omittable
load. -/
def cx8f : Func :=
  ⟨"f", [⟨0, [.dbgDeclare 1 cx8v, cx8dpA, cx8dpB, cx8ld, .other 5]⟩]⟩

/-- Module for the C8 counterexample. -/
def cx8M : LlvmModule :=
  ⟨[cx8f]⟩

/-- C8 counterexample: the first run deletes `cx8dpB` (the call
directly preceding the omittable load); in the rewritten module the
load's new predecessor is the tracking call `cx8dpA`, so a second run
deletes that one too — the rewriter is not idempotent. -/
theorem c8_counterexample :
    (runOnModule false [] (runOnModule false [] cx8M).modOut).modOut ≠
      (runOnModule false [] cx8M).modOut := by
  decide

/-- An already-stable module for the C8 witness. -/
def w8M : LlvmModule :=
  ⟨[⟨"e", [⟨0, [.other 90]⟩]⟩]⟩

/-- C8 witness: the amended iff applied at concrete inputs — the
stable module is unchanged by a run, and the counterexample module
(which has a qualifying tracking-call/omittable pair) is changed. -/
theorem c8_witness :
    (runOnModule false [] w8M).modOut = w8M ∧
    (runOnModule false [] cx8M).modOut ≠ cx8M :=
  ⟨(c8_rewrite_id_amended [] w8M).mpr (by decide),
   fun heq => by
    have := (c8_rewrite_id_amended [] cx8M).mp heq
    exact absurd this (by decide)⟩

theorem mem_insertLast :
    ∀ (l : List Inst) (c i : Inst), i ∈ insertLast l c → i ∈ l ∨ i = c
  | [], _, _, h => by
    simp [insertLast] at h
    exact Or.inr h
  | [t], c, i, h => by
    rw [insertLast_one] at h
    rcases List.mem_cons.mp h with rfl | h2
    · exact Or.inr rfl
    · exact Or.inl h2
  | x :: y :: r, c, i, h => by
    rw [insertLast_cons2] at h
    rcases List.mem_cons.mp h with rfl | h2
    · exact Or.inl (List.mem_cons_self _ _)
    · rcases mem_insertLast (y :: r) c i h2 with h3 | h3
      · exact Or.inl (List.mem_cons_of_mem _ h3)
      · exact Or.inr h3

theorem deleteTracking_sub (om : List Inst) :
    ∀ (l : List Inst) (i : Inst), i ∈ deleteTracking om l → i ∈ l
  | [], _, h => h
  | [_], _, h => h
  | c :: x :: rest, i, h => by
    rw [deleteTracking_cons2] at h
    split at h
    · exact List.mem_cons_of_mem _ (deleteTracking_sub om (x :: rest) i h)
    · rcases List.mem_cons.mp h with rfl | h2
      · exact List.mem_cons_self _ _
      · exact List.mem_cons_of_mem _ (deleteTracking_sub om (x :: rest) i h2)

theorem insertReports_mem_blocks :
    ∀ (m : List (Nat × List String)) (tblLen : Nat) (f : Func) (bb2 : BBlock),
      bb2 ∈ (insertReports tblLen m f).blocks →
      ∃ bb ∈ f.blocks, bb2.bid = bb.bid ∧
        ∀ i ∈ bb2.insts, i ∈ bb.insts ∨ ∃ k, i = reportCall k
  | [], _, _, bb2, h => ⟨bb2, h, rfl, fun i hi => Or.inl hi⟩
  | (bid, s) :: rest, tblLen, f, bb2, h => by
    simp only [insertReports] at h
    obtain ⟨bb1, hbb1, hbid, hsub⟩ := insertReports_mem_blocks rest (tblLen + 1) _ bb2 h
    unfold insertBeforeTerm at hbb1
    obtain ⟨bb0, hbb0, heq⟩ := List.mem_map.mp hbb1
    by_cases hb : bb0.bid = bid
    · rw [if_pos hb] at heq
      refine ⟨bb0, hbb0, ?_, ?_⟩
      · rw [hbid, ← heq]
      · intro i hi
        rcases hsub i hi with h2 | h2
        · rw [← heq] at h2
          rcases mem_insertLast bb0.insts (reportCall tblLen) i h2 with h3 | h3
          · exact Or.inl h3
          · exact Or.inr ⟨tblLen, h3⟩
        · exact Or.inr h2
    · rw [if_neg hb] at heq
      refine ⟨bb0, hbb0, ?_, ?_⟩
      · rw [hbid, ← heq]
      · intro i hi
        rcases hsub i hi with h2 | h2
        · rw [← heq] at h2
          exact Or.inl h2
        · exact Or.inr h2

theorem insertReports_fname :
    ∀ (m : List (Nat × List String)) (tblLen : Nat) (f : Func),
      (insertReports tblLen m f).fname = f.fname
  | [], _, _ => rfl
  | (bid, s) :: rest, tblLen, f => by
    simp only [insertReports]
    rw [insertReports_fname rest (tblLen + 1) _]
    rfl

theorem processFunc_fname (deep : Bool) (dom : Inst → Inst → Bool) (dg : DepGraph)
    (tblLen : Nat) (f : Func) :
    (processFunc deep dom dg tblLen f).fnOut.fname = f.fname := by
  unfold processFunc
  split
  · rfl
  · cases deep
    · rfl
    · show (deleteAll _ (insertReports tblLen _ f)).fname = f.fname
      exact insertReports_fname _ tblLen f

theorem isFinalizeCall_reportCall (k : Nat) :
    isFinalizeCall (reportCall k) = false := rfl

theorem isFinalizeCall_addDepsCall (s : String) :
    isFinalizeCall (addDepsCall s) = false := rfl

theorem processFunc_finalize (deep : Bool) (dom : Inst → Inst → Bool)
    (dg : DepGraph) (tblLen : Nat) (f : Func) (bb2 : BBlock)
    (hbb2 : bb2 ∈ (processFunc deep dom dg tblLen f).fnOut.blocks)
    (i : Inst) (hi : i ∈ bb2.insts) (hfin : isFinalizeCall i = true) :
    ∃ bb ∈ f.blocks, i ∈ bb.insts := by
  unfold processFunc at hbb2
  split at hbb2
  · exact ⟨bb2, hbb2, hi⟩
  · unfold deleteAll at hbb2
    obtain ⟨bb1, hbb1, heq⟩ := List.mem_map.mp hbb2
    rw [← heq] at hi
    have hi1 : i ∈ bb1.insts := deleteTracking_sub _ bb1.insts i hi
    cases deep
    · exact ⟨bb1, hbb1, hi1⟩
    · obtain ⟨bb0, hbb0, _, hsub⟩ :=
        insertReports_mem_blocks (deepAnalyze f dom dg (baselineOmit f.insts)).2
          tblLen f bb1 hbb1
      rcases hsub i hi1 with h2 | ⟨k, rfl⟩
      · exact ⟨bb0, hbb0, h2⟩
      · rw [isFinalizeCall_reportCall] at hfin
        exact Bool.noConfusion hfin

theorem runFuncs_mem (deep : Bool) :
    ∀ (fs : List Func) (ans : List ((Inst → Inst → Bool) × DepGraph))
      (tbl : List (List String)) (f2 : Func),
      f2 ∈ (runFuncsAux deep ans tbl fs).funcsOut →
      ∃ f ∈ fs, ∃ dom dg tblLen, f2 = (processFunc deep dom dg tblLen f).fnOut
  | [], _, _, _, h => absurd h (List.not_mem_nil _)
  | f :: rest, ans, tbl, f2, h => by
    simp only [runFuncsAux] at h
    rcases List.mem_cons.mp h with rfl | h2
    · exact ⟨f, List.mem_cons_self _ _, _, _, _, rfl⟩
    · obtain ⟨g, hg, dom, dg, tblLen, heq⟩ := runFuncs_mem deep rest ans.tail _ f2 h2
      exact ⟨g, List.mem_cons_of_mem _ hg, dom, dg, tblLen, heq⟩

theorem expandFinalize_id (s : String) :
    ∀ l : List Inst, (∀ i ∈ l, isFinalizeCall i = false) → expandFinalize s l = l
  | [], _ => rfl
  | i :: rest, h => by
    have hstep : expandFinalize s (i :: rest) =
        (if isFinalizeCall i then [addDepsCall s, i] else [i]) ++ expandFinalize s rest := rfl
    rw [hstep, h i (List.mem_cons_self _ _), if_neg Bool.false_ne_true,
      List.singleton_append,
      expandFinalize_id s rest (fun j hj => h j (List.mem_cons_of_mem _ hj))]

theorem attachDeps_id (s : String) :
    ∀ fs : List Func,
      (∀ f ∈ fs, f.fname = "main" →
        ∀ bb ∈ f.blocks, ∀ i ∈ bb.insts, isFinalizeCall i = false) →
      attachDeps s fs = fs
  | [], _ => rfl
  | f :: rest, h => by
    have htail : attachDeps s rest = rest :=
      attachDeps_id s rest (fun g hg => h g (List.mem_cons_of_mem _ hg))
    show (if f.fname = "main" then
        Func.mk f.fname (f.blocks.map (fun b => BBlock.mk b.bid (expandFinalize s b.insts)))
      else f) :: attachDeps s rest = f :: rest
    rw [htail]
    by_cases hf : f.fname = "main"
    · rw [if_pos hf]
      have hblocks : f.blocks.map
          (fun b => BBlock.mk b.bid (expandFinalize s b.insts)) = f.blocks := by
        conv_rhs => rw [← List.map_id f.blocks]
        apply List.map_congr_left
        intro b hb
        rw [expandFinalize_id s b.insts (h f (List.mem_cons_self _ _) hf b hb)]
        rfl
      rw [hblocks]
    · rw [if_neg hf]

theorem finalize_preceded (s : String) :
    ∀ (l : List Inst) (i : Inst), i ∈ expandFinalize s l → isFinalizeCall i = true →
      (addDepsCall s, i) ∈ consecPairs (expandFinalize s l)
  | [], _, h, _ => by simp [expandFinalize] at h
  | x :: rest, i, h, hfin => by
    have hstep : expandFinalize s (x :: rest) =
        (if isFinalizeCall x then [addDepsCall s, x] else [x]) ++ expandFinalize s rest := rfl
    rw [hstep] at h ⊢
    by_cases hx : isFinalizeCall x = true
    · rw [if_pos hx] at h ⊢
      rcases List.mem_cons.mp h with rfl | h2
      · rw [isFinalizeCall_addDepsCall] at hfin
        exact Bool.noConfusion hfin
      · rcases List.mem_cons.mp h2 with rfl | h3
        · exact List.mem_cons_self _ _
        · exact consecPairs_cons_sub (addDepsCall s) _ _
            (consecPairs_cons_sub x _ _ (finalize_preceded s rest i h3 hfin))
    · rw [if_neg hx] at h ⊢
      rcases List.mem_cons.mp h with rfl | h2
      · exact absurd hfin hx
      · exact consecPairs_cons_sub x _ _ (finalize_preceded s rest i h2 hfin)

/-- C9: `runOnModule` returns `true` for every input module; when the
deep analysis is enabled but no function named `main` contains a
`__dp_finalize` call, the output module is exactly the rewritten
function list — no `__dp_add_omission_deps` call is inserted anywhere,
while tracking-call deletion and report insertion still apply; and in
every output function named `main`, every `__dp_finalize` call is
immediately preceded by a `__dp_add_omission_deps` call carrying the
serialized table. -/
theorem c9_return_and_attach (deep : Bool)
    (ans : List ((Inst → Inst → Bool) × DepGraph)) (M : LlvmModule) :
    (runOnModule deep ans M).ok = true ∧
    ((∀ f ∈ M.funcs, f.fname = "main" →
        ∀ bb ∈ f.blocks, ∀ i ∈ bb.insts, isFinalizeCall i = false) →
      (runOnModule true ans M).modOut = ⟨(runFuncsAux true ans [] M.funcs).funcsOut⟩) ∧
    (∀ f2 ∈ (runOnModule true ans M).modOut.funcs, f2.fname = "main" →
      ∀ bb ∈ f2.blocks, ∀ i ∈ bb.insts, isFinalizeCall i = true →
        (addDepsCall (depStringOf (runFuncsAux true ans [] M.funcs).tbl), i)
          ∈ consecPairs bb.insts) := by
  refine ⟨?_, ?_, ?_⟩
  · cases deep
    · rfl
    · rfl
  · intro hno
    have hid : attachDeps (depStringOf (runFuncsAux true ans [] M.funcs).tbl)
        (runFuncsAux true ans [] M.funcs).funcsOut
        = (runFuncsAux true ans [] M.funcs).funcsOut := by
      apply attachDeps_id
      intro f2 hf2 hmain bb2 hbb2 i hi
      by_contra hcon
      rw [Bool.not_eq_false] at hcon
      obtain ⟨f, hf, dom, dg, tblLen, heq⟩ := runFuncs_mem true M.funcs ans [] f2 hf2
      obtain ⟨bb, hbb, hib⟩ :=
        processFunc_finalize true dom dg tblLen f bb2 (heq ▸ hbb2) i hi hcon
      have hff : f.fname = "main" := by
        rw [← processFunc_fname true dom dg tblLen f, ← heq]
        exact hmain
      have := hno f hf hff bb hbb i hib
      rw [this] at hcon
      exact Bool.noConfusion hcon
    exact congrArg LlvmModule.mk hid
  · intro f2 hf2 hmain bb hbb i hi hfin
    have hf2m : f2 ∈ attachDeps (depStringOf (runFuncsAux true ans [] M.funcs).tbl)
        (runFuncsAux true ans [] M.funcs).funcsOut := hf2
    unfold attachDeps at hf2m
    obtain ⟨f3, hf3, heq⟩ := List.mem_map.mp hf2m
    by_cases hf3m : f3.fname = "main"
    · rw [if_pos hf3m] at heq
      rw [← heq] at hbb
      obtain ⟨b0, hb0, heqb⟩ := List.mem_map.mp hbb
      rw [← heqb] at hi ⊢
      exact finalize_preceded _ b0.insts i hi hfin
    · rw [if_neg hf3m] at heq
      rw [← heq] at hmain
      exact absurd hmain hf3m

/-- The finalize call of the C9 witness. -/
def w9fin : Inst :=
  .call 50 (some "__dp_finalize") []

/-- The `main` function of the C9 witness. -/
def w9main : Func :=
  ⟨"main", [⟨0, [w9fin, .other 51]⟩]⟩

/-- Module with a finalize call in `main`, for the C9 witness. -/
def w9M : LlvmModule :=
  ⟨[w9main]⟩

/-- Module without an entry function, for the C9 witness. -/
def w9Mno : LlvmModule :=
  ⟨[⟨"aux", [⟨0, [.other 52]⟩]⟩]⟩

/-- C9 witness: the theorem applied at concrete inputs, discharging the
hypotheses of each conjunct. -/
theorem c9_witness :
    (runOnModule false [] w9M).ok = true ∧
    (runOnModule true [] w9Mno).modOut
      = ⟨(runFuncsAux true [] [] w9Mno.funcs).funcsOut⟩ ∧
    (addDepsCall (depStringOf (runFuncsAux true [] [] w9M.funcs).tbl), w9fin)
      ∈ consecPairs (BBlock.mk 0 [addDepsCall "", w9fin, .other 51]).insts :=
  ⟨(c9_return_and_attach false [] w9M).1,
   (c9_return_and_attach true [] w9Mno).2.1 (by decide),
   (c9_return_and_attach true [] w9M).2.2
     ⟨"main", [⟨0, [addDepsCall "", w9fin, .other 51]⟩]⟩ (by decide) rfl
     ⟨0, [addDepsCall "", w9fin, .other 51]⟩ (by decide) w9fin (by decide) rfl⟩

theorem charJoin_glue (c : Char) (x y : List Char) (z : List (List Char)) :
    charJoin c ((x ++ c :: y) :: z) = x ++ c :: charJoin c (y :: z) := by
  cases z with
  | nil => rfl
  | cons g gs =>
    show (x ++ c :: y) ++ c :: charJoin c (g :: gs)
      = x ++ c :: (y ++ c :: charJoin c (g :: gs))
    simp [List.append_assoc]

theorem foldl_sep_data {α : Type} (c : Char) (sep : String) (hsep : sep.data = [c])
    (f : α → String) :
    ∀ (rest : List α) (a : String),
      (rest.foldl (fun acc s => acc ++ sep ++ f s) a).data
        = charJoin c (a.data :: rest.map (fun s => (f s).data))
  | [], _ => rfl
  | s :: r, a => by
    simp only [List.foldl_cons, List.map_cons]
    rw [foldl_sep_data c sep hsep f r (a ++ sep ++ f s)]
    have hd : (a ++ sep ++ f s).data = a.data ++ c :: (f s).data := by
      simp [String.data_append, hsep]
    rw [hd, charJoin_glue]
    rfl

theorem serEntry_data : ∀ e : List String,
    (serEntry e).data = charJoin ',' (e.map String.data)
  | [] => rfl
  | d :: rest => foldl_sep_data ',' "," rfl (fun s => s) rest d

theorem depStringOf_data : ∀ tbl : List (List String),
    (depStringOf tbl).data = charJoin '/' (tbl.map (fun e => (serEntry e).data))
  | [] => rfl
  | e :: rest => foldl_sep_data '/' "/" rfl serEntry rest (serEntry e)

theorem splitOnChar_cons (c x : Char) (rest : List Char) :
    splitOnChar c (x :: rest) =
      if x = c then [] :: splitOnChar c rest
      else
        match splitOnChar c rest with
        | [] => [[x]]
        | g :: gs => (x :: g) :: gs := rfl

theorem splitOnChar_no_sep (c : Char) : ∀ l : List Char, c ∉ l → splitOnChar c l = [l]
  | [], _ => rfl
  | x :: rest, h => by
    have hne : ¬(x = c) := fun he => h (List.mem_cons.mpr (Or.inl he.symm))
    unfold splitOnChar
    rw [if_neg hne, splitOnChar_no_sep c rest (fun hm => h (List.mem_cons_of_mem _ hm))]

theorem splitOnChar_glue (c : Char) :
    ∀ x : List Char, c ∉ x → ∀ t : List Char,
      splitOnChar c (x ++ c :: t) = x :: splitOnChar c t
  | [], _, t => by
    show splitOnChar c (c :: t) = [] :: splitOnChar c t
    rw [splitOnChar_cons, if_pos rfl]
  | a :: x2, h, t => by
    have ha : ¬(a = c) := fun he => h (List.mem_cons.mpr (Or.inl he.symm))
    show splitOnChar c (a :: (x2 ++ c :: t)) = (a :: x2) :: splitOnChar c t
    rw [splitOnChar_cons, if_neg ha,
      splitOnChar_glue c x2 (fun hm => h (List.mem_cons_of_mem _ hm)) t]

theorem splitOnChar_charJoin (c : Char) :
    ∀ parts : List (List Char), parts ≠ [] → (∀ p ∈ parts, c ∉ p) →
      splitOnChar c (charJoin c parts) = parts
  | [], h, _ => absurd rfl h
  | [x], _, hp => splitOnChar_no_sep c x (hp x (List.mem_cons_self _ _))
  | x :: y :: r, _, hp => by
    show splitOnChar c (x ++ c :: charJoin c (y :: r)) = x :: y :: r
    rw [splitOnChar_glue c x (hp x (List.mem_cons_self _ _)) _,
      splitOnChar_charJoin c (y :: r) (by simp)
        (fun p hpm => hp p (List.mem_cons_of_mem _ hpm))]

theorem mem_charJoin (c : Char) :
    ∀ (parts : List (List Char)) (ch : Char), ch ∈ charJoin c parts →
      ch = c ∨ ∃ p ∈ parts, ch ∈ p
  | [], _, h => by simp [charJoin] at h
  | [x], ch, h => Or.inr ⟨x, List.mem_cons_self _ _, h⟩
  | x :: y :: r, ch, h => by
    rw [show charJoin c (x :: y :: r) = x ++ c :: charJoin c (y :: r) from rfl] at h
    rcases List.mem_append.mp h with h1 | h1
    · exact Or.inr ⟨x, List.mem_cons_self _ _, h1⟩
    · rcases List.mem_cons.mp h1 with rfl | h2
      · exact Or.inl rfl
      · rcases mem_charJoin c (y :: r) ch h2 with h3 | ⟨p, hpm, hin⟩
        · exact Or.inl h3
        · exact Or.inr ⟨p, List.mem_cons_of_mem _ hpm, hin⟩

/-- C7 amended: provided no descriptor contains `'/'` or `','`, and the
table and each of its entries are nonempty (as is true of every table
the analysis builds — entries are created only from nonempty descriptor
sets), splitting the serialized string on `'/'` and each entry on `','`
reconstructs the table exactly; the empty table serializes to the empty
string, but decoding the empty string yields `[[""]]`, not the empty
table (see the counterexample), so the nonemptiness restriction cannot
be dropped. -/
theorem c7_roundtrip_amended (tbl : List (List String))
    (hne : tbl ≠ [])
    (hee : ∀ e ∈ tbl, e ≠ [])
    (hch : ∀ e ∈ tbl, ∀ d ∈ e, ∀ ch ∈ d.data, ch ≠ '/' ∧ ch ≠ ',') :
    decodeTable (depStringOf tbl) = tbl ∧
    depStringOf ([] : List (List String)) = "" := by
  refine ⟨?_, rfl⟩
  have hnoslash : ∀ p ∈ tbl.map (fun e => (serEntry e).data), '/' ∉ p := by
    intro p hp hsl
    obtain ⟨e, he, rfl⟩ := List.mem_map.mp hp
    rw [serEntry_data] at hsl
    rcases mem_charJoin ',' _ '/' hsl with h1 | ⟨p2, hp2, hin⟩
    · exact absurd h1 (by decide)
    · obtain ⟨d, hd, rfl⟩ := List.mem_map.mp hp2
      exact (hch e he d hd '/' hin).1 rfl
  unfold decodeTable
  have hdata : (depStringOf tbl).toList
      = charJoin '/' (tbl.map (fun e => (serEntry e).data)) := depStringOf_data tbl
  rw [hdata,
    splitOnChar_charJoin '/' _ (fun hm => hne (List.map_eq_nil_iff.mp hm)) hnoslash,
    List.map_map]
  conv_rhs => rw [← List.map_id tbl]
  apply List.map_congr_left
  intro e he
  simp only [Function.comp_apply]
  have hnocomma : ∀ p ∈ e.map String.data, ',' ∉ p := by
    intro p hp hcm
    obtain ⟨d, hd, rfl⟩ := List.mem_map.mp hp
    exact (hch e he d hd ',' hcm).2 rfl
  rw [serEntry_data,
    splitOnChar_charJoin ',' _ (fun hm => hee e he (List.map_eq_nil_iff.mp hm)) hnocomma,
    List.map_map]
  have hid : e.map ((fun d => String.mk d) ∘ String.data) = e.map id :=
    List.map_congr_left (fun d _ => rfl)
  rw [hid, List.map_id]
  rfl

/-- C7 counterexample: the empty table serializes to the empty string,
but splitting the empty string on the documented delimiters yields
`[[""]]`, not the empty sequence — the round-trip fails at the empty
table. -/
theorem c7_counterexample :
    depStringOf ([] : List (List String)) = "" ∧
    decodeTable (depStringOf ([] : List (List String))) ≠ ([] : List (List String)) := by
  refine ⟨rfl, by decide⟩

/-- C7 witness: the amended round-trip theorem applied at a concrete
table. -/
theorem c7_witness :
    decodeTable (depStringOf [["a", "b"], ["c"]]) = [["a", "b"], ["c"]] ∧
    depStringOf ([] : List (List String)) = "" :=
  c7_roundtrip_amended [["a", "b"], ["c"]] (by decide) (by decide) (by decide)

end DPOmission
